import Mathlib

/-!
Verification of the Duplicate_Invoice_Automation pipeline (DF_Final.py and
PyQt_Final.py) against its natural-language specification.

The Python code is shallowly embedded: folders become lists of file names,
text artifacts become (name, content) pairs, each pipeline stage's `for`
loop becomes a structurally recursive function over the directory-listing
snapshot it iterates, and per-file filesystem operations are modelled on
the success path (the code catches and logs per-item I/O failures; where a
claim is about the exception behaviour itself, the failure is modelled
explicitly).  Machine integers in SHA-256 are Nat with explicit `% 2^32`.
-/

namespace InvoiceDedup

/-! ### Python string primitives used by `sha256_hash`

`sha256_hash` (DF_Final.py:127-129, PyQt_Final.py:99-101) computes
`''.join(text.lower().split())` and hashes its UTF-8 encoding.
-/

/-- Whitespace as recognised by Python's `str.split()` / `str.isspace`:
ASCII whitespace, the C1 separators, and the Unicode space characters. -/
def isPySpace (c : Char) : Bool :=
  c ∈ ([' ', '\t', '\n', '\r', '\x0b', '\x0c',
        '\x1c', '\x1d', '\x1e', '\x1f', '\u0085', ' ',
        ' ', ' ', ' ', ' ', ' ', ' ',
        ' ', ' ', ' ', ' ', ' ', ' ',
        ' ', ' ', ' ', ' ', '　'] : List Char)

/-- Python `str.lower()`, modelled character-wise (the ASCII case mappings,
which is what the invoice texts exercise). -/
def pyLower (s : String) : String := ⟨s.data.map Char.toLower⟩

/-- Worker for Python `str.split()` with no separator: splits on runs of
whitespace and never yields an empty word.  `acc` is the current word,
reversed. -/
def splitWsAux : List Char → List Char → List (List Char)
  | [], acc => if acc.isEmpty then [] else [acc.reverse]
  | c :: cs, acc =>
    if isPySpace c then
      if acc.isEmpty then splitWsAux cs [] else acc.reverse :: splitWsAux cs []
    else splitWsAux cs (c :: acc)

/-- Python `text.split()` (whitespace split, empty words dropped). -/
def pySplit (s : String) : List String :=
  (splitWsAux s.data []).map (fun w => (⟨w⟩ : String))

/-- Python `''.join(words)`: concatenation with the empty separator. -/
def pyJoinEmpty (l : List String) : String := ⟨(l.map String.data).flatten⟩

/-- The normalisation performed inside `sha256_hash`:
`''.join(text.lower().split())`. -/
def normalizeText (text : String) : String := pyJoinEmpty (pySplit (pyLower text))

/-- Modelled from the spec (§4.2): the normalized string is the text
lower-cased with every whitespace character removed.  Stated separately so
the code's `join(split())` normalisation can be compared against it. -/
def normalize_spec (text : String) : String :=
  ⟨(pyLower text).data.filter (fun c => !(isPySpace c))⟩

/-! ### UTF-8 encoding (`str.encode('utf-8')`) -/

/-- UTF-8 encoding of one code point, as a list of byte values. -/
def utf8Char (c : Char) : List Nat :=
  let n := c.toNat
  if n < 128 then [n]
  else if n < 2048 then [192 + n / 64, 128 + n % 64]
  else if n < 65536 then [224 + n / 4096, 128 + (n / 64) % 64, 128 + n % 64]
  else [240 + n / 262144, 128 + (n / 4096) % 64, 128 + (n / 64) % 64, 128 + n % 64]

/-- UTF-8 encoding of a string as a byte list. -/
def utf8Encode (s : String) : List Nat := (s.data.map utf8Char).flatten

/-! ### SHA-256 (`hashlib.sha256(...).hexdigest()`)

32-bit words are Nat values kept below `2^32` by explicit reduction.
-/

/-- `2^32`. -/
def M32 : Nat := 4294967296

def add32 (a b : Nat) : Nat := (a + b) % M32

def rotr32 (n x : Nat) : Nat := ((x >>> n) ||| (x <<< (32 - n))) % M32

def not32 (x : Nat) : Nat := Nat.xor x (M32 - 1)

def bsig0 (x : Nat) : Nat := Nat.xor (Nat.xor (rotr32 2 x) (rotr32 13 x)) (rotr32 22 x)
def bsig1 (x : Nat) : Nat := Nat.xor (Nat.xor (rotr32 6 x) (rotr32 11 x)) (rotr32 25 x)
def ssig0 (x : Nat) : Nat := Nat.xor (Nat.xor (rotr32 7 x) (rotr32 18 x)) (x >>> 3)
def ssig1 (x : Nat) : Nat := Nat.xor (Nat.xor (rotr32 17 x) (rotr32 19 x)) (x >>> 10)

def chFn (x y z : Nat) : Nat := Nat.xor (x &&& y) ((not32 x) &&& z)
def majFn (x y z : Nat) : Nat := Nat.xor (Nat.xor (x &&& y) (x &&& z)) (y &&& z)

/-- The 64 SHA-256 round constants (FIPS 180-4), written in decimal. -/
def K256 : List Nat :=
  [1116352408, 1899447441, 3049323471, 3921009573,
   961987163, 1508970993, 2453635748, 2870763221,
   3624381080, 310598401, 607225278, 1426881987,
   1925078388, 2162078206, 2614888103, 3248222580,
   3835390401, 4022224774, 264347078, 604807628,
   770255983, 1249150122, 1555081692, 1996064986,
   2554220882, 2821834349, 2952996808, 3210313671,
   3336571891, 3584528711, 113926993, 338241895,
   666307205, 773529912, 1294757372, 1396182291,
   1695183700, 1986661051, 2177026350, 2456956037,
   2730485921, 2820302411, 3259730800, 3345764771,
   3516065817, 3600352804, 4094571909, 275423344,
   430227734, 506948616, 659060556, 883997877,
   958139571, 1322822218, 1537002063, 1747873779,
   1955562222, 2024104815, 2227730452, 2361852424,
   2428436474, 2756734187, 3204031479, 3329325298]

/-- The eight 32-bit words of a SHA-256 hash state. -/
structure Hash8 where
  a : Nat
  b : Nat
  c : Nat
  d : Nat
  e : Nat
  f : Nat
  g : Nat
  h : Nat
deriving Repr, DecidableEq

/-- SHA-256 initial hash value (FIPS 180-4), written in decimal. -/
def H0 : Hash8 :=
  ⟨1779033703, 3144134277, 1013904242, 2773480762,
   1359893119, 2600822924, 528734635, 1541459225⟩

/-- Big-endian bytes to 32-bit words. -/
def toWords : List Nat → List Nat
  | b0 :: b1 :: b2 :: b3 :: rest => (((b0 * 256 + b1) * 256 + b2) * 256 + b3) :: toWords rest
  | _ => []

/-- Extend the 16-word message schedule to 64 words. -/
def extendSchedule (w16 : List Nat) : List Nat :=
  (List.range 48).foldl
    (fun w _ =>
      let n := w.length
      w ++ [add32 (add32 (ssig1 (w.getD (n - 2) 0)) (w.getD (n - 7) 0))
                  (add32 (ssig0 (w.getD (n - 15) 0)) (w.getD (n - 16) 0))])
    w16

/-- One SHA-256 compression round. -/
def roundStep (st : Hash8) (kw : Nat × Nat) : Hash8 :=
  let t1 := add32 st.h (add32 (bsig1 st.e) (add32 (chFn st.e st.f st.g) (add32 kw.1 kw.2)))
  let t2 := add32 (bsig0 st.a) (majFn st.a st.b st.c)
  ⟨add32 t1 t2, st.a, st.b, st.c, add32 st.d t1, st.e, st.f, st.g⟩

/-- Compress one 64-byte chunk into the running hash state. -/
def compress (st : Hash8) (chunk : List Nat) : Hash8 :=
  let ws := extendSchedule (toWords chunk)
  let r := (K256.zip ws).foldl roundStep st
  ⟨add32 st.a r.a, add32 st.b r.b, add32 st.c r.c, add32 st.d r.d,
   add32 st.e r.e, add32 st.f r.f, add32 st.g r.g, add32 st.h r.h⟩

/-- The 8-byte big-endian encoding of the bit length. -/
def be64 (n : Nat) : List Nat :=
  [(n >>> 56) % 256, (n >>> 48) % 256, (n >>> 40) % 256, (n >>> 32) % 256,
   (n >>> 24) % 256, (n >>> 16) % 256, (n >>> 8) % 256, n % 256]

/-- SHA-256 padding: append `0x80`, zeros to 56 mod 64, then the bit length. -/
def padBytes (msg : List Nat) : List Nat :=
  let len := msg.length
  let padZeros := (119 - len % 64) % 64
  msg ++ [128] ++ List.replicate padZeros 0 ++ be64 (8 * len)

/-- Split a byte list into 64-byte chunks. -/
def chunks64 (l : List Nat) : List (List Nat) :=
  if h : l = [] then [] else (l.take 64) :: chunks64 (l.drop 64)
termination_by l.length
decreasing_by
  simp only [List.length_drop]
  have : 0 < l.length := List.length_pos.mpr h
  omega

/-- The SHA-256 hash state of a byte message. -/
def sha256Words (msg : List Nat) : Hash8 :=
  (chunks64 (padBytes msg)).foldl compress H0

/-- Big-endian bytes of a 32-bit word. -/
def word32BE (w : Nat) : List Nat :=
  [(w >>> 24) % 256, (w >>> 16) % 256, (w >>> 8) % 256, w % 256]

/-- Lower-case hexadecimal digit characters (as `hexdigest` renders them). -/
def hexDigitChar : Nat → Char
  | 0 => '0' | 1 => '1' | 2 => '2' | 3 => '3' | 4 => '4'
  | 5 => '5' | 6 => '6' | 7 => '7' | 8 => '8' | 9 => '9'
  | 10 => 'a' | 11 => 'b' | 12 => 'c' | 13 => 'd' | 14 => 'e' | 15 => 'f'
  | _ => 'x'

/-- Two hex characters of one byte. -/
def byteHex (b : Nat) : List Char := [hexDigitChar ((b / 16) % 16), hexDigitChar (b % 16)]

/-- `hashlib.sha256(msg).hexdigest()`: the 32 digest bytes rendered as 64
lower-case hex characters. -/
def sha256Hex (msg : List Nat) : String :=
  let st := sha256Words msg
  let bytes := ([st.a, st.b, st.c, st.d, st.e, st.f, st.g, st.h].map word32BE).flatten
  ⟨(bytes.map byteHex).flatten⟩

/-- `sha256_hash` from DF_Final.py:127-129 (identical in PyQt_Final.py:99-101):
`normalized = ''.join(text.lower().split())` followed by
`hashlib.sha256(normalized.encode('utf-8')).hexdigest()`. -/
def sha256_hash (text : String) : String := sha256Hex (utf8Encode (normalizeText text))

/-! ### Filename predicates

Python tests `filename.lower().endswith('.pdf')` and `'.txt'`; the model
lowercases the character list and checks the suffix.
-/

/-- `filename.lower().endswith('.txt')`. -/
def endsTxt (s : String) : Bool := List.isSuffixOf ".txt".data (s.data.map Char.toLower)

/-- `filename.lower().endswith('.pdf')`. -/
def endsPdf (s : String) : Bool := List.isSuffixOf ".pdf".data (s.data.map Char.toLower)

/-- Index (from the right) of the last `'.'`, as used by `os.path.splitext`. -/
def lastDotSplit (cs : List Char) : Option Nat :=
  (cs.reverse.findIdx? (fun c => c == '.')).map (fun i => cs.length - 1 - i)

/-- `os.path.splitext(f)[0]` for a bare file name: everything before the
last dot, except that a name whose characters before that dot are all dots
(such as `".txt"`) is not split. -/
def splitextStem (s : String) : String :=
  match lastDotSplit s.data with
  | none => s
  | some i => if (s.data.take i).all (fun c => c == '.') then s else ⟨s.data.take i⟩

/-- The source PDF corresponding to a text artifact:
`os.path.splitext(f)[0] + ".pdf"` (DF_Final.py:152, 192). -/
def pdfNameOf (txtName : String) : String := splitextStem txtName ++ ".pdf"

/-! ### Filesystem state

One record per bucket directory of §6: `extracted` keeps file contents
(the text artifacts are read and hashed), the PDF buckets keep names only
(PDF bytes are opaque to the pipeline).
-/

structure FS where
  extracted : List (String × String)
  mainPdf : List String
  excp : List String
  uniq : List String
  dups : List String
deriving Repr, DecidableEq

def emptyFS : FS := ⟨[], [], [], [], []⟩

/-! ### Intake classifier (`copy_pdfs_to_main_folder`, DF_Final.py:40-72)

A source file is a name plus a flag saying whether `shutil.copy2` raises
for it.  The single `try` block wraps the whole walk (lines 45-70), so the
loop is modelled as running until the first raising copy; the surrounding
`except` (line 71) catches and logs, making the function itself total.
The walk order (recursive or flat) is abstracted as the input list: both
branches enumerate files and call `process_file` inside the same `try`.
-/

structure SrcFile where
  name : String
  failsCopy : Bool
deriving Repr, DecidableEq

/-- The intake walk; the `Bool` result records whether an exception was
raised (and then caught by the handler at DF_Final.py:71). -/
def copyLoop : List SrcFile → FS → Nat → Nat → FS × Nat × Nat × Bool
  | [], fs, p, o => (fs, p, o, false)
  | f :: rest, fs, p, o =>
    if f.failsCopy then (fs, p, o, true)
    else if endsPdf f.name then
      copyLoop rest { fs with mainPdf := fs.mainPdf ++ [f.name] } (p + 1) o
    else
      copyLoop rest { fs with excp := fs.excp ++ [f.name] } p (o + 1)

def copy_pdfs_to_main_folder (src : List SrcFile) (fs : FS) : FS :=
  (copyLoop src fs 0 0).1

/-! ### Text extraction stage (`extract_texts`, DF_Final.py:95-124)

The extraction adapter is an external collaborator (spec §1, §6), modelled
as a function from the PDF's name to `some text` or `none` (failure /
below-threshold result).  Success writes `stem + ".txt"`; failure moves
the PDF to the Exception bucket.
-/

def extractLoop (ext : String → Option String) : List String → FS → FS
  | [], fs => fs
  | f :: rest, fs =>
    if endsPdf f then
      match ext f with
      | some t =>
        extractLoop ext rest
          { fs with extracted := fs.extracted ++ [(splitextStem f ++ ".txt", t)] }
      | none =>
        extractLoop ext rest
          { fs with mainPdf := fs.mainPdf.erase f, excp := fs.excp ++ [f] }
    else extractLoop ext rest fs

def extract_texts (ext : String → Option String) (fs : FS) : FS :=
  extractLoop ext fs.mainPdf fs

/-! ### Local deduplicator (`deduplicate_text_files`, DF_Final.py:132-165)

`seen_hashes` is a dict hash ↦ first file name; a repeated hash deletes
the text artifact and, when the corresponding PDF still exists in the
staging folder, moves it to the Duplicates bucket.
-/

structure DState where
  seen : List (String × String)
  removed : List String
  mainPdf : List String
  dups : List String
deriving Repr, DecidableEq

def dedupLoop : List (String × String) → DState → DState
  | [], st => st
  | e :: rest, st =>
    let hsh := sha256_hash e.2
    if (st.seen.find? (fun p => p.1 == hsh)).isSome then
      let pn := pdfNameOf e.1
      if pn ∈ st.mainPdf then
        dedupLoop rest { st with removed := st.removed ++ [e.1],
                                 mainPdf := st.mainPdf.erase pn,
                                 dups := st.dups ++ [pn] }
      else
        dedupLoop rest { st with removed := st.removed ++ [e.1] }
    else
      dedupLoop rest { st with seen := st.seen ++ [(hsh, e.1)] }

def deduplicate_text_files (fs : FS) : FS :=
  let files := fs.extracted.filter (fun e => endsTxt e.1)
  let st := dedupLoop files ⟨[], [], fs.mainPdf, fs.dups⟩
  { fs with extracted := fs.extracted.filter (fun e => !(decide (e.1 ∈ st.removed))),
            mainPdf := st.mainPdf,
            dups := st.dups }

/-! ### Repository comparator (`cross_compare_with_repository`, DF_Final.py:168-221)

`repo_hashes` is built once from the repository's `.txt` files before the
batch loop and is never written to afterwards; the final step copies every
`.pdf` file of the Exception bucket into the Unique bucket.
-/

/-- The `repo_hashes` set built at DF_Final.py:171-179. -/
def repoHashes (repoFiles : List (String × String)) : List String :=
  (repoFiles.filter (fun e => endsTxt e.1)).map (fun e => sha256_hash e.2)

structure CState where
  removed : List String
  mainPdf : List String
  uniq : List String
  dups : List String
  cu : Nat
  cd : Nat
deriving Repr, DecidableEq

def ccLoop (repoH : List String) : List (String × String) → CState → CState
  | [], st => st
  | e :: rest, st =>
    let hsh := sha256_hash e.2
    let pn := pdfNameOf e.1
    if hsh ∈ repoH then
      if pn ∈ st.mainPdf then
        ccLoop repoH rest { st with removed := st.removed ++ [e.1],
                                    mainPdf := st.mainPdf.erase pn,
                                    dups := st.dups ++ [pn],
                                    cd := st.cd + 1 }
      else
        ccLoop repoH rest { st with removed := st.removed ++ [e.1], cd := st.cd + 1 }
    else
      if pn ∈ st.mainPdf then
        ccLoop repoH rest { st with mainPdf := st.mainPdf.erase pn,
                                    uniq := st.uniq ++ [pn],
                                    cu := st.cu + 1 }
      else
        ccLoop repoH rest st

def cross_compare_with_repository (repoFiles : List (String × String)) (fs : FS) :
    FS × Nat × Nat :=
  let repoH := repoHashes repoFiles
  let files := fs.extracted.filter (fun e => endsTxt e.1)
  let st := ccLoop repoH files ⟨[], fs.mainPdf, fs.uniq, fs.dups, 0, 0⟩
  ({ fs with extracted := fs.extracted.filter (fun e => !(decide (e.1 ∈ st.removed))),
             mainPdf := st.mainPdf,
             uniq := st.uniq ++ fs.excp.filter (fun n => endsPdf n),
             dups := st.dups }, st.cu, st.cd)

/-! ### Repository updater (`update_repository`, DF_Final.py:224-259)

All files of one run share one timestamp.  `stamp` stands for the token
`{date_str}_{time_str}_{month_year_str}`; the generated base name is
`INVC_<stamp>.txt` and collision k rewrites the single `".txt"` occurrence
to `"_k.txt"` (the stamp is digits, letters and underscores, so
`base_name.replace(".txt", ...)` touches only the extension).
-/

/-- Decimal digit values of `n`, least-significant first; the fuel
argument (any fuel ≥ n is enough) makes the recursion structural. -/
def decDigitsAux : Nat → Nat → List Nat
  | 0, _ => []
  | _ + 1, 0 => []
  | fuel + 1, n + 1 => (n + 1) % 10 :: decDigitsAux fuel ((n + 1) / 10)

/-- Decimal rendering of a collision counter, as Python's `f"{count}"`. -/
def decStr (n : Nat) : String := ⟨((decDigitsAux n n).map hexDigitChar).reverse⟩

/-- The k-th probed repository name for a given timestamp token. -/
def candName (stamp : String) (k : Nat) : String :=
  if k = 0 then "INVC_" ++ stamp ++ ".txt"
  else "INVC_" ++ stamp ++ "_" ++ decStr k ++ ".txt"

/-- The `while os.path.exists(...)` probe (DF_Final.py:245-247).  The fuel
`repoNames.length + 1` is enough: the candidates are pairwise distinct, so
at most `repoNames.length` of them can collide (`resolveIdx_least`). -/
def probeLoop (repoNames : List String) (stamp : String) : Nat → Nat → Nat
  | 0, k => k
  | fuel + 1, k =>
    if candName stamp k ∈ repoNames then probeLoop repoNames stamp fuel (k + 1) else k

def resolveIdx (repoNames : List String) (stamp : String) : Nat :=
  probeLoop repoNames stamp (repoNames.length + 1) 0

def resolveName (repoNames : List String) (stamp : String) : String :=
  candName stamp (resolveIdx repoNames stamp)

/-- The updater loop: every `.txt` artifact is moved to the repository
under its resolved name; the move makes the name exist for later probes.
Returns the repository contents and the list of (source, filed) names. -/
def updLoop (stamp : String) :
    List (String × String) → List (String × String) →
    List (String × String) × List (String × String)
  | [], repo => (repo, [])
  | e :: rest, repo =>
    if endsTxt e.1 then
      let nm := resolveName (repo.map Prod.fst) stamp
      let r := updLoop stamp rest (repo ++ [(nm, e.2)])
      (r.1, (e.1, nm) :: r.2)
    else updLoop stamp rest repo

/-- The numeric suffix indices probed for the successive filed artifacts. -/
def updIdxs (stamp : String) :
    List (String × String) → List (String × String) → List Nat
  | [], _ => []
  | e :: rest, repo =>
    if endsTxt e.1 then
      let k := resolveIdx (repo.map Prod.fst) stamp
      k :: updIdxs stamp rest (repo ++ [(candName stamp k, e.2)])
    else updIdxs stamp rest repo

def update_repository (repoFiles : List (String × String)) (stamp : String) (fs : FS) :
    List (String × String) × FS × List (String × String) :=
  let r := updLoop stamp fs.extracted repoFiles
  (r.1, { fs with extracted := fs.extracted.filter (fun e => !(endsTxt e.1)) }, r.2)

/-! ### Cleanup (`cleanup_main_pdf_folder`, DF_Final.py:262-273) -/

def cleanup_main_pdf_folder (fs : FS) : FS :=
  { fs with mainPdf := fs.mainPdf.filter (fun f => !(endsPdf f)),
            excp := fs.excp ++ fs.mainPdf.filter (fun f => endsPdf f) }

/-! ### The end-to-end run (`main`, DF_Final.py:301-316) -/

def runPipeline (src : List SrcFile) (ext : String → Option String)
    (repoFiles : List (String × String)) (stamp : String) (fs : FS) :
    FS × List (String × String) × List (String × String) :=
  let fs1 := copy_pdfs_to_main_folder src fs
  let fs2 := extract_texts ext fs1
  let fs3 := deduplicate_text_files fs2
  let c := cross_compare_with_repository repoFiles fs3
  let u := update_repository repoFiles stamp c.1
  (cleanup_main_pdf_folder u.2.1, u.1, u.2.2)

/-! ### Inventory reporter (`list_files_as_dataframe`)

A bucket directory is `none` when it does not exist, otherwise the listing
returned by `os.listdir`.  Rows carry (name, byte size, modified time).
-/

structure DirEntry where
  name : String
  size : Nat
  mtime : Nat
  isFile : Bool
deriving Repr, DecidableEq

def rowsOf (entries : List DirEntry) : List (String × Nat × Nat) :=
  (entries.filter (fun e => e.isFile)).map (fun e => (e.name, e.size, e.mtime))

/-- DF_Final.py:278-290: `os.listdir(folder_path)` is called directly, so
a missing folder raises `FileNotFoundError`. -/
def list_files_as_dataframe (folder : Option (List DirEntry)) :
    Except String (List (String × Nat × Nat)) :=
  match folder with
  | none => Except.error "FileNotFoundError"
  | some entries => Except.ok (rowsOf entries)

/-- PyQt_Final.py:332-346: the GUI variant first checks
`os.path.exists(folder_path)` and returns an empty DataFrame. -/
def list_files_as_dataframe_gui (folder : Option (List DirEntry)) :
    Except String (List (String × Nat × Nat)) :=
  match folder with
  | none => Except.ok []
  | some entries => Except.ok (rowsOf entries)

/-! ## Theorems -/

/-! ### C1: the fingerprint function -/

theorem splitWsAux_flatten (cs : List Char) : ∀ acc,
    (splitWsAux cs acc).flatten =
      acc.reverse ++ cs.filter (fun c => !(isPySpace c)) := by
  induction cs with
  | nil =>
    intro acc
    by_cases h : acc.isEmpty
    · rw [List.isEmpty_iff] at h
      simp [splitWsAux, h]
    · simp [splitWsAux, h]
  | cons c cs ih =>
    intro acc
    by_cases hc : isPySpace c
    · by_cases h : acc.isEmpty
      · rw [List.isEmpty_iff] at h
        simp [splitWsAux, hc, h, ih, List.filter_cons]
      · simp [splitWsAux, hc, h, ih, List.filter_cons]
    · simp [splitWsAux, hc, ih, List.filter_cons]

theorem normalizeText_eq_spec (t : String) : normalizeText t = normalize_spec t := by
  unfold normalizeText normalize_spec pyJoinEmpty pySplit
  congr 1
  rw [List.map_map]
  have hid : (String.data ∘ fun w => (⟨w⟩ : String)) = id := rfl
  rw [hid, List.map_id]
  simpa using splitWsAux_flatten (pyLower t).data []

theorem flatten_map_byteHex_length (l : List Nat) :
    ((l.map byteHex).flatten).length = 2 * l.length := by
  induction l with
  | nil => rfl
  | cons b l ih =>
    simp only [List.map_cons, List.flatten_cons, List.length_append, ih, byteHex,
      List.length_cons, List.length_nil]
    omega

theorem sha256Hex_length (msg : List Nat) : (sha256Hex msg).length = 64 := by
  have hmk : ∀ cs : List Char, (⟨cs⟩ : String).length = cs.length := fun _ => rfl
  unfold sha256Hex
  rw [hmk, flatten_map_byteHex_length]
  simp [word32BE]

theorem hexDigitChar_mem (n : Nat) (h : n < 16) :
    hexDigitChar n ∈ ("0123456789abcdef").data := by
  interval_cases n <;> decide

theorem sha256Hex_hex_chars (msg : List Nat) :
    ((sha256Hex msg).data.all (fun c => decide (c ∈ ("0123456789abcdef").data))) = true := by
  rw [List.all_eq_true]
  intro c hc
  rw [decide_eq_true_iff]
  have hdata : (sha256Hex msg).data =
      ((([ (sha256Words msg).a, (sha256Words msg).b, (sha256Words msg).c,
           (sha256Words msg).d, (sha256Words msg).e, (sha256Words msg).f,
           (sha256Words msg).g, (sha256Words msg).h].map word32BE).flatten).map byteHex).flatten := rfl
  rw [hdata] at hc
  rw [List.mem_flatten] at hc
  obtain ⟨l, hl, hcl⟩ := hc
  rw [List.mem_map] at hl
  obtain ⟨b, _, hb⟩ := hl
  rw [← hb] at hcl
  unfold byteHex at hcl
  simp only [List.mem_cons, List.not_mem_nil, or_false] at hcl
  rcases hcl with h1 | h1
  · exact h1 ▸ hexDigitChar_mem _ (Nat.mod_lt _ (by norm_num))
  · exact h1 ▸ hexDigitChar_mem _ (Nat.mod_lt _ (by norm_num))

/-- C1: `fingerprint(t)` is the SHA-256 digest, rendered as a fixed-width
(64-character) hexadecimal string, of the UTF-8 encoding of `t`
lower-cased with all whitespace removed; texts with byte-identical
normalized forms get equal fingerprints, in particular
`fingerprint("Invoice  #123") == fingerprint("invoice#123")`. -/
theorem C1_fingerprint_normalizes_and_hashes :
    (∀ t, sha256_hash t = sha256Hex (utf8Encode (normalize_spec t))) ∧
    (∀ t, (sha256_hash t).length = 64 ∧
      ((sha256_hash t).data.all (fun c => decide (c ∈ ("0123456789abcdef").data))) = true) ∧
    (∀ t t', normalize_spec t = normalize_spec t' → sha256_hash t = sha256_hash t') ∧
    sha256_hash "Invoice  #123" = sha256_hash "invoice#123" := by
  have h1 : ∀ t, sha256_hash t = sha256Hex (utf8Encode (normalize_spec t)) := by
    intro t
    simp only [sha256_hash, normalizeText_eq_spec]
  have h3 : ∀ t t', normalize_spec t = normalize_spec t' →
      sha256_hash t = sha256_hash t' := by
    intro t t' h
    rw [h1, h1, h]
  refine ⟨h1, fun t => ⟨sha256Hex_length _, sha256Hex_hex_chars _⟩, h3, ?_⟩
  exact h3 _ _ (by decide)

/-- Witness for C1's invariance implication at a concrete pair of texts. -/
theorem C1_fingerprint_normalizes_and_hashes_witness :
    normalize_spec "a b" = normalize_spec "ab" ∧ sha256_hash "a b" = sha256_hash "ab" :=
  ⟨by decide, C1_fingerprint_normalizes_and_hashes.2.2.1 "a b" "ab" (by decide)⟩

/-! ### Local deduplicator: loop lemmas -/

theorem find?_fst_isSome (l : List (String × String)) (h : String) :
    ((l.find? (fun p => p.1 == h)).isSome) = true ↔ h ∈ l.map Prod.fst := by
  induction l with
  | nil => simp [List.find?]
  | cons a l ih =>
    by_cases ha : a.1 = h
    · simp [List.find?, ha]
    · have : (a.1 == h) = false := beq_false_of_ne ha
      simp [List.find?, this, ih, Ne.symm ha]

theorem nodup_split_mem {α : Type} {xs ys : List α} {n : α}
    (h : (xs ++ n :: ys).Nodup) : n ∉ xs ∧ n ∉ ys ∧ (xs ++ ys).Nodup := by
  induction xs with
  | nil =>
    rcases List.nodup_cons.mp h with ⟨h1, h2⟩
    exact ⟨by simp, h1, h2⟩
  | cons x xs ih =>
    rw [List.cons_append, List.nodup_cons] at h
    rcases h with ⟨hx, h⟩
    rcases ih h with ⟨h1, h2, h3⟩
    refine ⟨?_, h2, ?_⟩
    · intro hc
      rcases List.mem_cons.mp hc with hc | hc
      · exact hx (hc ▸ (by simp : n ∈ xs ++ n :: ys))
      · exact h1 hc
    · rw [List.cons_append, List.nodup_cons]
      refine ⟨fun hc => ?_, h3⟩
      rcases List.mem_append.mp hc with hc | hc
      · exact hx (List.mem_append.mpr (Or.inl hc))
      · exact hx (List.mem_append.mpr (Or.inr (List.mem_cons_of_mem _ hc)))

/-- Unfolding `dedupLoop` on a repeated fingerprint whose PDF is present. -/
theorem dedupLoop_cons_dup_move (e : String × String) (rest : List (String × String))
    (st : DState) (h : sha256_hash e.2 ∈ st.seen.map Prod.fst)
    (h2 : pdfNameOf e.1 ∈ st.mainPdf) :
    dedupLoop (e :: rest) st =
      dedupLoop rest { st with removed := st.removed ++ [e.1],
                               mainPdf := st.mainPdf.erase (pdfNameOf e.1),
                               dups := st.dups ++ [pdfNameOf e.1] } := by
  have hs : (st.seen.find? (fun p => p.1 == sha256_hash e.2)).isSome = true :=
    (find?_fst_isSome _ _).mpr h
  simp [dedupLoop, hs, h2]

/-- Unfolding `dedupLoop` on a repeated fingerprint whose PDF is absent. -/
theorem dedupLoop_cons_dup_skip (e : String × String) (rest : List (String × String))
    (st : DState) (h : sha256_hash e.2 ∈ st.seen.map Prod.fst)
    (h2 : pdfNameOf e.1 ∉ st.mainPdf) :
    dedupLoop (e :: rest) st =
      dedupLoop rest { st with removed := st.removed ++ [e.1] } := by
  have hs : (st.seen.find? (fun p => p.1 == sha256_hash e.2)).isSome = true :=
    (find?_fst_isSome _ _).mpr h
  simp [dedupLoop, hs, h2]

/-- Unfolding `dedupLoop` on a first-seen fingerprint. -/
theorem dedupLoop_cons_new (e : String × String) (rest : List (String × String))
    (st : DState) (h : sha256_hash e.2 ∉ st.seen.map Prod.fst) :
    dedupLoop (e :: rest) st =
      dedupLoop rest { st with seen := st.seen ++ [(sha256_hash e.2, e.1)] } := by
  have hs : ¬ ((st.seen.find? (fun p => p.1 == sha256_hash e.2)).isSome = true) :=
    fun hc => h ((find?_fst_isSome _ _).mp hc)
  simp [dedupLoop, hs]

/-- One `dedupLoop` step, abstracted: the relations between the state
before and after processing one artifact. -/
theorem dedupLoop_cons_step (e : String × String) (rest : List (String × String))
    (st : DState) :
    ∃ st', dedupLoop (e :: rest) st = dedupLoop rest st' ∧
      st.seen ⊆ st'.seen ∧
      st.removed ⊆ st'.removed ∧
      st'.removed ⊆ st.removed ++ [e.1] ∧
      st'.mainPdf ⊆ st.mainPdf ∧
      st.dups ⊆ st'.dups ∧
      (∀ pn, pn ∈ st.mainPdf → pn ≠ pdfNameOf e.1 → pn ∈ st'.mainPdf) ∧
      (∀ pn, pn ∉ st.mainPdf → pn ∉ st.dups → pn ∉ st'.dups) ∧
      (st.mainPdf.Nodup → st'.mainPdf.Nodup) ∧
      (∀ hh, hh ∉ st.seen.map Prod.fst → hh ≠ sha256_hash e.2 →
        hh ∉ st'.seen.map Prod.fst) := by
  by_cases h : sha256_hash e.2 ∈ st.seen.map Prod.fst
  · by_cases h2 : pdfNameOf e.1 ∈ st.mainPdf
    · refine ⟨_, dedupLoop_cons_dup_move e rest st h h2, List.Subset.refl _,
        List.subset_append_left _ _, List.Subset.refl _, List.erase_subset _ _,
        List.subset_append_left _ _, ?_, ?_, ?_, ?_⟩
      · intro pn hpn hne
        exact (List.mem_erase_of_ne hne).mpr hpn
      · intro pn hpn hd hc
        rcases List.mem_append.mp hc with hc | hc
        · exact hd hc
        · exact hpn (List.mem_singleton.mp hc ▸ h2)
      · exact fun hn => hn.erase _
      · exact fun hh hs _ => hs
    · refine ⟨_, dedupLoop_cons_dup_skip e rest st h h2, List.Subset.refl _,
        List.subset_append_left _ _, List.Subset.refl _, List.Subset.refl _,
        List.Subset.refl _, fun pn hpn _ => hpn, fun pn _ hd => hd,
        fun hn => hn, fun hh hs _ => hs⟩
  · refine ⟨_, dedupLoop_cons_new e rest st h, List.subset_append_left _ _,
      List.Subset.refl _, List.subset_append_left _ _, List.Subset.refl _,
      List.Subset.refl _, fun pn hpn _ => hpn, fun pn _ hd => hd,
      fun hn => hn, ?_⟩
    intro hh hs hne hc
    simp only [List.map_append, List.mem_append, List.map_cons, List.map_nil,
      List.mem_singleton] at hc
    rcases hc with hc | hc
    · exact hs hc
    · exact hne hc

theorem dedupLoop_append (xs ys : List (String × String)) :
    ∀ st, dedupLoop (xs ++ ys) st = dedupLoop ys (dedupLoop xs st) := by
  induction xs with
  | nil => intro st; rfl
  | cons e xs ih =>
    intro st
    rw [List.cons_append]
    by_cases h : sha256_hash e.2 ∈ st.seen.map Prod.fst
    · by_cases h2 : pdfNameOf e.1 ∈ st.mainPdf
      · rw [dedupLoop_cons_dup_move e _ st h h2, dedupLoop_cons_dup_move e xs st h h2, ih]
      · rw [dedupLoop_cons_dup_skip e _ st h h2, dedupLoop_cons_dup_skip e xs st h h2, ih]
    · rw [dedupLoop_cons_new e _ st h, dedupLoop_cons_new e xs st h, ih]

theorem dedupLoop_seen_mono (files : List (String × String)) :
    ∀ st, st.seen ⊆ (dedupLoop files st).seen := by
  induction files with
  | nil => intro st; exact List.Subset.refl _
  | cons e rest ih =>
    intro st
    obtain ⟨st', heq, h1, -⟩ := dedupLoop_cons_step e rest st
    rw [heq]
    exact h1.trans (ih st')

theorem dedupLoop_removed_mono (files : List (String × String)) :
    ∀ st, st.removed ⊆ (dedupLoop files st).removed := by
  induction files with
  | nil => intro st; exact List.Subset.refl _
  | cons e rest ih =>
    intro st
    obtain ⟨st', heq, -, h2, -⟩ := dedupLoop_cons_step e rest st
    rw [heq]
    exact h2.trans (ih st')

theorem dedupLoop_removed_sub (files : List (String × String)) :
    ∀ st, (dedupLoop files st).removed ⊆ st.removed ++ files.map Prod.fst := by
  induction files with
  | nil => intro st; simp [dedupLoop]
  | cons e rest ih =>
    intro st
    obtain ⟨st', heq, -, -, h3, -⟩ := dedupLoop_cons_step e rest st
    rw [heq]
    refine (ih st').trans ?_
    intro n hn
    rcases List.mem_append.mp hn with hn | hn
    · rcases List.mem_append.mp (h3 hn) with hn | hn
      · exact List.mem_append.mpr (Or.inl hn)
      · refine List.mem_append.mpr (Or.inr ?_)
        simp [List.mem_singleton.mp hn]
    · refine List.mem_append.mpr (Or.inr ?_)
      simp [hn]

theorem dedupLoop_mainPdf_sub (files : List (String × String)) :
    ∀ st, (dedupLoop files st).mainPdf ⊆ st.mainPdf := by
  induction files with
  | nil => intro st; exact List.Subset.refl _
  | cons e rest ih =>
    intro st
    obtain ⟨st', heq, -, -, -, h4, -⟩ := dedupLoop_cons_step e rest st
    rw [heq]
    exact (ih st').trans h4

theorem dedupLoop_dups_mono (files : List (String × String)) :
    ∀ st, st.dups ⊆ (dedupLoop files st).dups := by
  induction files with
  | nil => intro st; exact List.Subset.refl _
  | cons e rest ih =>
    intro st
    obtain ⟨st', heq, -, -, -, -, h5, -⟩ := dedupLoop_cons_step e rest st
    rw [heq]
    exact h5.trans (ih st')

theorem dedupLoop_mainPdf_nodup (files : List (String × String)) :
    ∀ st, st.mainPdf.Nodup → (dedupLoop files st).mainPdf.Nodup := by
  induction files with
  | nil => intro st h; exact h
  | cons e rest ih =>
    intro st h
    obtain ⟨st', heq, -, -, -, -, -, -, -, h8, -⟩ := dedupLoop_cons_step e rest st
    rw [heq]
    exact ih st' (h8 h)

theorem dedupLoop_mainPdf_mem (files : List (String × String)) :
    ∀ st pn, pn ∈ st.mainPdf → (∀ e ∈ files, pdfNameOf e.1 ≠ pn) →
      pn ∈ (dedupLoop files st).mainPdf := by
  induction files with
  | nil => intro st pn h _; exact h
  | cons e rest ih =>
    intro st pn h hall
    obtain ⟨st', heq, -, -, -, -, -, h6, -⟩ := dedupLoop_cons_step e rest st
    rw [heq]
    refine ih st' pn (h6 pn h (fun hc => hall e (by simp) hc.symm)) ?_
    exact fun x hx => hall x (by simp [hx])

theorem dedupLoop_dups_not_mem (files : List (String × String)) :
    ∀ st pn, pn ∉ st.mainPdf → pn ∉ st.dups → pn ∉ (dedupLoop files st).dups := by
  induction files with
  | nil => intro st pn _ h; exact h
  | cons e rest ih =>
    intro st pn hM hD
    obtain ⟨st', heq, -, -, -, h4, -, -, h7, -⟩ := dedupLoop_cons_step e rest st
    rw [heq]
    exact ih st' pn (fun hc => hM (h4 hc)) (h7 pn hM hD)

theorem dedupLoop_seen_hash_of_mem (xs : List (String × String)) :
    ∀ st, ∀ e ∈ xs, sha256_hash e.2 ∈ (dedupLoop xs st).seen.map Prod.fst := by
  induction xs with
  | nil => intro st e he; cases he
  | cons x xs ih =>
    intro st e he
    rcases List.mem_cons.mp he with rfl | he
    · by_cases h : sha256_hash e.2 ∈ st.seen.map Prod.fst
      · obtain ⟨st', heq, h1, -⟩ := dedupLoop_cons_step e xs st
        rw [heq]
        exact List.map_subset _ (h1.trans (dedupLoop_seen_mono xs st')) h
      · rw [dedupLoop_cons_new e xs st h]
        refine List.map_subset _ (dedupLoop_seen_mono xs _) ?_
        simp
    · obtain ⟨st', heq, -⟩ := dedupLoop_cons_step x xs st
      rw [heq]
      exact ih st' e he

theorem dedupLoop_seen_hash_not_mem (xs : List (String × String)) :
    ∀ st hh, hh ∉ st.seen.map Prod.fst → (∀ x ∈ xs, sha256_hash x.2 ≠ hh) →
      hh ∉ (dedupLoop xs st).seen.map Prod.fst := by
  induction xs with
  | nil => intro st hh hs _; exact hs
  | cons x xs ih =>
    intro st hh hs hall
    obtain ⟨st', heq, -, -, -, -, -, -, -, -, h9⟩ := dedupLoop_cons_step x xs st
    rw [heq]
    refine ih st' hh (h9 hh hs (fun hc => hall x (by simp) hc.symm)) ?_
    exact fun y hy => hall y (by simp [hy])

theorem nodup_map_split {α β : Type} (f : α → β) (xs ys : List α) (e : α)
    (h : ((xs ++ e :: ys).map f).Nodup) :
    (∀ x ∈ xs, f x ≠ f e) ∧ (∀ x ∈ ys, f x ≠ f e) := by
  rw [List.map_append, List.map_cons] at h
  obtain ⟨h1, h2, -⟩ := nodup_split_mem h
  constructor
  · intro x hx hc; exact h1 (hc ▸ List.mem_map_of_mem f hx)
  · intro x hx hc; exact h2 (hc ▸ List.mem_map_of_mem f hx)

/-- An artifact whose fingerprint was not seen before it, and whose name
occurs nowhere else, is not removed by the deduplication loop. -/
theorem dedupLoop_first_not_removed (xs ys : List (String × String))
    (a : String × String) (st : DState)
    (hseen : sha256_hash a.2 ∉ st.seen.map Prod.fst)
    (hxs : ∀ x ∈ xs, sha256_hash x.2 ≠ sha256_hash a.2)
    (hname_st : a.1 ∉ st.removed)
    (hname_xs : a.1 ∉ xs.map Prod.fst)
    (hname_ys : a.1 ∉ ys.map Prod.fst) :
    a.1 ∉ (dedupLoop (xs ++ a :: ys) st).removed := by
  rw [dedupLoop_append]
  have h1 : sha256_hash a.2 ∉ (dedupLoop xs st).seen.map Prod.fst :=
    dedupLoop_seen_hash_not_mem xs st _ hseen hxs
  have h2 : a.1 ∉ (dedupLoop xs st).removed := by
    intro hc
    rcases List.mem_append.mp (dedupLoop_removed_sub xs st hc) with hc | hc
    exacts [hname_st hc, hname_xs hc]
  rw [dedupLoop_cons_new _ _ _ h1]
  intro hc
  rcases List.mem_append.mp (dedupLoop_removed_sub ys _ hc) with hc | hc
  · exact h2 hc
  · exact hname_ys hc

/-- An artifact whose fingerprint is already registered when it is reached
is removed by the deduplication loop. -/
theorem dedupLoop_dup_removed (xs ys : List (String × String))
    (b : String × String) (st : DState)
    (h : sha256_hash b.2 ∈ (dedupLoop xs st).seen.map Prod.fst) :
    b.1 ∈ (dedupLoop (xs ++ b :: ys) st).removed := by
  rw [dedupLoop_append]
  by_cases h2 : pdfNameOf b.1 ∈ (dedupLoop xs st).mainPdf
  · rw [dedupLoop_cons_dup_move _ _ _ h h2]
    exact dedupLoop_removed_mono ys _ (by simp)
  · rw [dedupLoop_cons_dup_skip _ _ _ h h2]
    exact dedupLoop_removed_mono ys _ (by simp)

/-- A duplicate whose PDF is still present has that PDF moved out of the
staging folder into the duplicates list, permanently. -/
theorem dedupLoop_dup_pdf_moved (xs ys : List (String × String))
    (b : String × String) (st : DState)
    (h : sha256_hash b.2 ∈ (dedupLoop xs st).seen.map Prod.fst)
    (hM : pdfNameOf b.1 ∈ st.mainPdf)
    (hxs : ∀ x ∈ xs, pdfNameOf x.1 ≠ pdfNameOf b.1)
    (hnd : st.mainPdf.Nodup) :
    pdfNameOf b.1 ∈ (dedupLoop (xs ++ b :: ys) st).dups ∧
    pdfNameOf b.1 ∉ (dedupLoop (xs ++ b :: ys) st).mainPdf := by
  rw [dedupLoop_append]
  have hM1 : pdfNameOf b.1 ∈ (dedupLoop xs st).mainPdf :=
    dedupLoop_mainPdf_mem xs st _ hM hxs
  rw [dedupLoop_cons_dup_move _ _ _ h hM1]
  constructor
  · exact dedupLoop_dups_mono ys _ (by simp)
  · intro hc
    have hmem := dedupLoop_mainPdf_sub ys _ hc
    have hnd1 : (dedupLoop xs st).mainPdf.Nodup := dedupLoop_mainPdf_nodup xs st hnd
    simp only [DState.mainPdf] at hmem
    exact ((hnd1.mem_erase_iff).mp hmem).1 rfl

/-- Names removed by the loop are absent from the filtered folder. -/
theorem removed_not_mem_filter (l : List (String × String))
    (removed : List String) (n : String) (h : n ∈ removed) :
    n ∉ ((l.filter (fun e => !(decide (e.1 ∈ removed)))).map Prod.fst) := by
  intro hc
  rcases List.mem_map.mp hc with ⟨x, hx, hxn⟩
  rcases List.mem_filter.mp hx with ⟨-, hpx⟩
  rw [Bool.not_eq_true', decide_eq_false_iff_not] at hpx
  exact hpx (hxn ▸ h)

theorem mem_filter_not_removed (l : List (String × String))
    (removed : List String) (e : String × String)
    (hl : e ∈ l) (h : e.1 ∉ removed) :
    e ∈ l.filter (fun x => !(decide (x.1 ∈ removed))) := by
  rw [List.mem_filter]
  exact ⟨hl, by rw [Bool.not_eq_true', decide_eq_false_iff_not]; exact h⟩

theorem not_mem_map_of_ne {α β : Type} (f : α → β) (l : List α) (v : β)
    (h : ∀ x ∈ l, f x ≠ v) : v ∉ l.map f := by
  intro hc
  rcases List.mem_map.mp hc with ⟨x, hx, hxe⟩
  exact h x hx hxe

/-! ### C2: first-seen wins in the local deduplicator -/

/-- C2: in the local deduplication pass, for three artifacts with
identical normalized content arriving in order `a`, `b`, `c` (with `a`
the first artifact bearing that fingerprint), exactly `a` is retained,
while `b` and `c` have their text artifacts deleted and their
corresponding source PDFs moved into the Duplicates bucket. -/
theorem C2_local_dedup_first_seen_wins (fs : FS)
    (pre m1 m2 post : List (String × String)) (a b c : String × String)
    (hsplit : fs.extracted = pre ++ a :: (m1 ++ b :: (m2 ++ c :: post)))
    (htxt : ∀ e ∈ fs.extracted, endsTxt e.1 = true)
    (hnab : normalizeText a.2 = normalizeText b.2)
    (hnac : normalizeText a.2 = normalizeText c.2)
    (hfirst : ∀ e ∈ pre, sha256_hash e.2 ≠ sha256_hash a.2)
    (hnames : (fs.extracted.map Prod.fst).Nodup)
    (hpdfs : (fs.extracted.map (fun e => pdfNameOf e.1)).Nodup)
    (hbM : pdfNameOf b.1 ∈ fs.mainPdf)
    (hcM : pdfNameOf c.1 ∈ fs.mainPdf)
    (hMnd : fs.mainPdf.Nodup) :
    a ∈ (deduplicate_text_files fs).extracted ∧
    b.1 ∉ ((deduplicate_text_files fs).extracted.map Prod.fst) ∧
    c.1 ∉ ((deduplicate_text_files fs).extracted.map Prod.fst) ∧
    pdfNameOf b.1 ∈ (deduplicate_text_files fs).dups ∧
    pdfNameOf b.1 ∉ (deduplicate_text_files fs).mainPdf ∧
    pdfNameOf c.1 ∈ (deduplicate_text_files fs).dups ∧
    pdfNameOf c.1 ∉ (deduplicate_text_files fs).mainPdf := by
  have hab : sha256_hash a.2 = sha256_hash b.2 :=
    congrArg (fun s => sha256Hex (utf8Encode s)) hnab
  have hac : sha256_hash a.2 = sha256_hash c.2 :=
    congrArg (fun s => sha256Hex (utf8Encode s)) hnac
  have hfilter : fs.extracted.filter (fun e => endsTxt e.1) = fs.extracted :=
    List.filter_eq_self.mpr htxt
  have hDext : (deduplicate_text_files fs).extracted =
      fs.extracted.filter (fun e =>
        !(decide (e.1 ∈ (dedupLoop fs.extracted ⟨[], [], fs.mainPdf, fs.dups⟩).removed))) := by
    simp [deduplicate_text_files, hfilter]
  have hDdups : (deduplicate_text_files fs).dups =
      (dedupLoop fs.extracted ⟨[], [], fs.mainPdf, fs.dups⟩).dups := by
    simp [deduplicate_text_files, hfilter]
  have hDmain : (deduplicate_text_files fs).mainPdf =
      (dedupLoop fs.extracted ⟨[], [], fs.mainPdf, fs.dups⟩).mainPdf := by
    simp [deduplicate_text_files, hfilter]
  have hnames1 : ((pre ++ a :: (m1 ++ b :: (m2 ++ c :: post))).map Prod.fst).Nodup := by
    rw [← hsplit]; exact hnames
  have heqb : fs.extracted = (pre ++ a :: m1) ++ b :: (m2 ++ c :: post) := by
    rw [hsplit]; simp
  have heqc : fs.extracted = (pre ++ a :: (m1 ++ b :: m2)) ++ c :: post := by
    rw [hsplit]; simp
  have hA : a.1 ∉ (dedupLoop fs.extracted ⟨[], [], fs.mainPdf, fs.dups⟩).removed := by
    rw [hsplit]
    have hs := nodup_map_split Prod.fst pre (m1 ++ b :: (m2 ++ c :: post)) a hnames1
    refine dedupLoop_first_not_removed _ _ _ _ (by simp) hfirst (by simp) ?_ ?_
    · exact not_mem_map_of_ne _ _ _ hs.1
    · exact not_mem_map_of_ne _ _ _ hs.2
  have hBrem : b.1 ∈ (dedupLoop fs.extracted ⟨[], [], fs.mainPdf, fs.dups⟩).removed := by
    rw [heqb]
    refine dedupLoop_dup_removed _ _ _ _ ?_
    have hm := dedupLoop_seen_hash_of_mem (pre ++ a :: m1)
      ⟨[], [], fs.mainPdf, fs.dups⟩ a (by simp)
    rw [hab] at hm
    exact hm
  have hCrem : c.1 ∈ (dedupLoop fs.extracted ⟨[], [], fs.mainPdf, fs.dups⟩).removed := by
    rw [heqc]
    refine dedupLoop_dup_removed _ _ _ _ ?_
    have hm := dedupLoop_seen_hash_of_mem (pre ++ a :: (m1 ++ b :: m2))
      ⟨[], [], fs.mainPdf, fs.dups⟩ a (by simp)
    rw [hac] at hm
    exact hm
  have hpdfsb : (((pre ++ a :: m1) ++ b :: (m2 ++ c :: post)).map
      (fun e => pdfNameOf e.1)).Nodup := by
    rw [← heqb]; exact hpdfs
  have hpdfsc : (((pre ++ a :: (m1 ++ b :: m2)) ++ c :: post).map
      (fun e => pdfNameOf e.1)).Nodup := by
    rw [← heqc]; exact hpdfs
  have hBpdf : pdfNameOf b.1 ∈ (dedupLoop fs.extracted ⟨[], [], fs.mainPdf, fs.dups⟩).dups ∧
      pdfNameOf b.1 ∉ (dedupLoop fs.extracted ⟨[], [], fs.mainPdf, fs.dups⟩).mainPdf := by
    rw [heqb]
    have hsp := nodup_map_split (fun e => pdfNameOf e.1)
      (pre ++ a :: m1) (m2 ++ c :: post) b hpdfsb
    refine dedupLoop_dup_pdf_moved _ _ _ _ ?_ hbM hsp.1 hMnd
    have hm := dedupLoop_seen_hash_of_mem (pre ++ a :: m1)
      ⟨[], [], fs.mainPdf, fs.dups⟩ a (by simp)
    rw [hab] at hm
    exact hm
  have hCpdf : pdfNameOf c.1 ∈ (dedupLoop fs.extracted ⟨[], [], fs.mainPdf, fs.dups⟩).dups ∧
      pdfNameOf c.1 ∉ (dedupLoop fs.extracted ⟨[], [], fs.mainPdf, fs.dups⟩).mainPdf := by
    rw [heqc]
    have hsp := nodup_map_split (fun e => pdfNameOf e.1)
      (pre ++ a :: (m1 ++ b :: m2)) post c hpdfsc
    refine dedupLoop_dup_pdf_moved _ _ _ _ ?_ hcM hsp.1 hMnd
    have hm := dedupLoop_seen_hash_of_mem (pre ++ a :: (m1 ++ b :: m2))
      ⟨[], [], fs.mainPdf, fs.dups⟩ a (by simp)
    rw [hac] at hm
    exact hm
  refine ⟨?_, ?_, ?_, ?_, ?_, ?_, ?_⟩
  · rw [hDext]
    exact mem_filter_not_removed _ _ _ (by rw [hsplit]; simp) hA
  · rw [hDext]
    exact removed_not_mem_filter _ _ _ hBrem
  · rw [hDext]
    exact removed_not_mem_filter _ _ _ hCrem
  · rw [hDdups]; exact hBpdf.1
  · rw [hDmain]; exact hBpdf.2
  · rw [hDdups]; exact hCpdf.1
  · rw [hDmain]; exact hCpdf.2

/-- Witness for C2 at a concrete three-duplicate batch. -/
theorem C2_local_dedup_first_seen_wins_witness :
    pdfNameOf "b.txt" ∈ (FS.mk [("a.txt", "inv 7"), ("b.txt", "inv 7"), ("c.txt", "inv 7")]
      ["a.pdf", "b.pdf", "c.pdf"] [] [] []).mainPdf ∧
    (("a.txt", "inv 7") ∈ (deduplicate_text_files
      (FS.mk [("a.txt", "inv 7"), ("b.txt", "inv 7"), ("c.txt", "inv 7")]
        ["a.pdf", "b.pdf", "c.pdf"] [] [] [])).extracted ∧
     "b.txt" ∉ ((deduplicate_text_files
      (FS.mk [("a.txt", "inv 7"), ("b.txt", "inv 7"), ("c.txt", "inv 7")]
        ["a.pdf", "b.pdf", "c.pdf"] [] [] [])).extracted.map Prod.fst) ∧
     "c.txt" ∉ ((deduplicate_text_files
      (FS.mk [("a.txt", "inv 7"), ("b.txt", "inv 7"), ("c.txt", "inv 7")]
        ["a.pdf", "b.pdf", "c.pdf"] [] [] [])).extracted.map Prod.fst)) := by
  refine ⟨by decide, ?_⟩
  have h := C2_local_dedup_first_seen_wins
    (FS.mk [("a.txt", "inv 7"), ("b.txt", "inv 7"), ("c.txt", "inv 7")]
      ["a.pdf", "b.pdf", "c.pdf"] [] [] [])
    [] [] [] [] ("a.txt", "inv 7") ("b.txt", "inv 7") ("c.txt", "inv 7")
    rfl (by decide) rfl rfl (by simp) (by decide) (by decide) (by decide)
    (by decide) (by decide)
  exact ⟨h.1, h.2.1, h.2.2.1⟩

/-! ### C9: local duplicate whose source PDF is already gone -/

/-- C9: when the local deduplicator classifies an artifact as a duplicate
but its corresponding source PDF is absent from the staging folder, the
text artifact is still deleted, no PDF lands in the Duplicates bucket for
it, and the loop carries on (a later duplicate is still removed). -/
theorem C9_local_dup_missing_pdf (fs : FS)
    (pre post : List (String × String)) (b : String × String)
    (hsplit : fs.extracted = pre ++ b :: post)
    (htxt : ∀ e ∈ fs.extracted, endsTxt e.1 = true)
    (hdup : ∃ x ∈ pre, sha256_hash x.2 = sha256_hash b.2)
    (hbM : pdfNameOf b.1 ∉ fs.mainPdf)
    (hbD : pdfNameOf b.1 ∉ fs.dups) :
    b.1 ∉ ((deduplicate_text_files fs).extracted.map Prod.fst) ∧
    pdfNameOf b.1 ∉ (deduplicate_text_files fs).dups ∧
    (∀ e ∈ post, sha256_hash e.2 = sha256_hash b.2 →
      e.1 ∉ ((deduplicate_text_files fs).extracted.map Prod.fst)) := by
  have hfilter : fs.extracted.filter (fun e => endsTxt e.1) = fs.extracted :=
    List.filter_eq_self.mpr htxt
  have hDext : (deduplicate_text_files fs).extracted =
      fs.extracted.filter (fun e =>
        !(decide (e.1 ∈ (dedupLoop fs.extracted ⟨[], [], fs.mainPdf, fs.dups⟩).removed))) := by
    simp [deduplicate_text_files, hfilter]
  have hDdups : (deduplicate_text_files fs).dups =
      (dedupLoop fs.extracted ⟨[], [], fs.mainPdf, fs.dups⟩).dups := by
    simp [deduplicate_text_files, hfilter]
  obtain ⟨x, hx, hxh⟩ := hdup
  have hBrem : b.1 ∈ (dedupLoop fs.extracted ⟨[], [], fs.mainPdf, fs.dups⟩).removed := by
    rw [hsplit]
    refine dedupLoop_dup_removed _ _ _ _ ?_
    have hm := dedupLoop_seen_hash_of_mem pre ⟨[], [], fs.mainPdf, fs.dups⟩ x hx
    rw [hxh] at hm
    exact hm
  refine ⟨?_, ?_, ?_⟩
  · rw [hDext]
    exact removed_not_mem_filter _ _ _ hBrem
  · rw [hDdups]
    exact dedupLoop_dups_not_mem _ _ _ hbM hbD
  · intro e he hhe
    obtain ⟨q1, q2, hq⟩ := List.append_of_mem he
    have heq : fs.extracted = (pre ++ b :: q1) ++ e :: q2 := by
      rw [hsplit, hq]; simp
    have hexrem : e.1 ∈ (dedupLoop fs.extracted ⟨[], [], fs.mainPdf, fs.dups⟩).removed := by
      rw [heq]
      refine dedupLoop_dup_removed _ _ _ _ ?_
      have hm := dedupLoop_seen_hash_of_mem (pre ++ b :: q1)
        ⟨[], [], fs.mainPdf, fs.dups⟩ x (by simp [hx])
      rw [hxh, ← hhe] at hm
      exact hm
    rw [hDext]
    exact removed_not_mem_filter _ _ _ hexrem

/-- Witness for C9: the duplicate's PDF is absent, yet its text is deleted
and nothing is filed into Duplicates for it. -/
theorem C9_local_dup_missing_pdf_witness :
    pdfNameOf "b.txt" ∉ (FS.mk [("a.txt", "inv 9"), ("b.txt", "inv 9")]
      ["a.pdf"] [] [] []).mainPdf ∧
    ("b.txt" ∉ ((deduplicate_text_files
      (FS.mk [("a.txt", "inv 9"), ("b.txt", "inv 9")] ["a.pdf"] [] [] [])).extracted.map
        Prod.fst) ∧
     pdfNameOf "b.txt" ∉ (deduplicate_text_files
      (FS.mk [("a.txt", "inv 9"), ("b.txt", "inv 9")] ["a.pdf"] [] [] [])).dups) := by
  refine ⟨by decide, ?_⟩
  have h := C9_local_dup_missing_pdf
    (FS.mk [("a.txt", "inv 9"), ("b.txt", "inv 9")] ["a.pdf"] [] [] [])
    [("a.txt", "inv 9")] [] ("b.txt", "inv 9")
    rfl (by decide) ⟨("a.txt", "inv 9"), by simp, rfl⟩ (by decide) (by decide)
  exact ⟨h.1, h.2.1⟩

/-! ### C3: intake classification under a per-file I/O error

The `try` block of `copy_pdfs_to_main_folder` wraps the whole walk, not a
single file, so a raising copy ends the walk.
-/

theorem copyLoop_fail (pre rest : List SrcFile) (f : SrcFile)
    (hpre : ∀ g ∈ pre, g.failsCopy = false) (hf : f.failsCopy = true) :
    ∀ fs p o, copyLoop (pre ++ f :: rest) fs p o =
      ((copyLoop pre fs p o).1, (copyLoop pre fs p o).2.1,
        (copyLoop pre fs p o).2.2.1, true) := by
  induction pre with
  | nil =>
    intro fs p o
    simp [copyLoop, hf]
  | cons g pre ih =>
    intro fs p o
    have hg : g.failsCopy = false := hpre g (by simp)
    have hrest : ∀ x ∈ pre, x.failsCopy = false := fun x hx => hpre x (by simp [hx])
    by_cases hp : endsPdf g.name = true <;>
      simp [copyLoop, hg, hp, ih hrest]

/-- C3 counterexample: with a batch of two files where the first copy
raises, the second file is neither staged as a PDF nor classified as an
exception — the walk stops, contradicting the claim that every later file
is still visited and classified. -/
theorem C3_intake_abort_counterexample :
    "b.pdf" ∉ (copy_pdfs_to_main_folder
      [SrcFile.mk "a.pdf" true, SrcFile.mk "b.pdf" false] emptyFS).mainPdf ∧
    "b.pdf" ∉ (copy_pdfs_to_main_folder
      [SrcFile.mk "a.pdf" true, SrcFile.mk "b.pdf" false] emptyFS).excp := by
  decide

/-- C3 (amended): an I/O error during the walk is caught by the
handler around the whole walk — the function still returns (the flag
records the caught exception) — but the files after the failing one are
not visited or classified: the resulting state is exactly the state after
the files preceding the failure. -/
theorem C3_intake_error_caught_but_aborts_walk
    (pre rest : List SrcFile) (f : SrcFile) (fs : FS)
    (hpre : ∀ g ∈ pre, g.failsCopy = false) (hf : f.failsCopy = true) :
    (copyLoop (pre ++ f :: rest) fs 0 0).2.2.2 = true ∧
    copy_pdfs_to_main_folder (pre ++ f :: rest) fs =
      copy_pdfs_to_main_folder pre fs := by
  have h := copyLoop_fail pre rest f hpre hf fs 0 0
  constructor
  · rw [h]
  · unfold copy_pdfs_to_main_folder
    rw [h]

/-- Witness for the amended C3 at a concrete three-file batch. -/
theorem C3_intake_error_caught_but_aborts_walk_witness :
    (∀ g ∈ [SrcFile.mk "x.pdf" false], g.failsCopy = false) ∧
    ((copyLoop ([SrcFile.mk "x.pdf" false] ++ SrcFile.mk "y.pdf" true ::
        [SrcFile.mk "z.pdf" false]) emptyFS 0 0).2.2.2 = true ∧
     copy_pdfs_to_main_folder ([SrcFile.mk "x.pdf" false] ++ SrcFile.mk "y.pdf" true ::
        [SrcFile.mk "z.pdf" false]) emptyFS =
       copy_pdfs_to_main_folder [SrcFile.mk "x.pdf" false] emptyFS) := by
  refine ⟨by decide, ?_⟩
  exact C3_intake_error_caught_but_aborts_walk
    [SrcFile.mk "x.pdf" false] [SrcFile.mk "z.pdf" false]
    (SrcFile.mk "y.pdf" true) emptyFS (by decide) (by decide)

/-! ### C8: the inventory reporter on a missing bucket -/

/-- C8 counterexample: the DataFrame-script variant
(`DF_Final.list_files_as_dataframe`) calls `os.listdir` with no existence
check, so a missing bucket raises instead of producing an empty listing. -/
theorem C8_missing_bucket_counterexample :
    list_files_as_dataframe none = Except.error "FileNotFoundError" ∧
    list_files_as_dataframe none ≠ Except.ok [] :=
  ⟨rfl, fun h => Except.noConfusion h⟩

/-- C8 (amended): the GUI variant returns an empty listing for a missing
bucket; on an existing bucket both variants return one
(filename, size, mtime) row per regular file directly inside it, without
mutating anything; the DataFrame-script variant errors on a missing
bucket. -/
theorem C8_inventory_reporter_behaviour :
    list_files_as_dataframe_gui none = Except.ok [] ∧
    (∀ entries, list_files_as_dataframe_gui (some entries) =
        Except.ok ((entries.filter (fun e => e.isFile)).map
          (fun e => (e.name, e.size, e.mtime))) ∧
      list_files_as_dataframe (some entries) =
        Except.ok ((entries.filter (fun e => e.isFile)).map
          (fun e => (e.name, e.size, e.mtime)))) ∧
    list_files_as_dataframe none = Except.error "FileNotFoundError" :=
  ⟨rfl, fun _ => ⟨rfl, rfl⟩, rfl⟩

/-! ### Repository comparator: loop lemmas -/

theorem endsPdf_pdfNameOf (n : String) : endsPdf (pdfNameOf n) = true := by
  unfold endsPdf pdfNameOf
  rw [String.data_append, List.map_append]
  have h4 : (String.data ".pdf").map Char.toLower = String.data ".pdf" := by decide
  rw [h4, List.isSuffixOf_iff_suffix]
  exact List.suffix_append _ _

theorem ccLoop_cons_rdup_move (repoH : List String) (e : String × String)
    (rest : List (String × String)) (st : CState)
    (h1 : sha256_hash e.2 ∈ repoH) (h2 : pdfNameOf e.1 ∈ st.mainPdf) :
    ccLoop repoH (e :: rest) st =
      ccLoop repoH rest { st with removed := st.removed ++ [e.1],
                                  mainPdf := st.mainPdf.erase (pdfNameOf e.1),
                                  dups := st.dups ++ [pdfNameOf e.1],
                                  cd := st.cd + 1 } := by
  simp [ccLoop, h1, h2]

theorem ccLoop_cons_rdup_skip (repoH : List String) (e : String × String)
    (rest : List (String × String)) (st : CState)
    (h1 : sha256_hash e.2 ∈ repoH) (h2 : pdfNameOf e.1 ∉ st.mainPdf) :
    ccLoop repoH (e :: rest) st =
      ccLoop repoH rest { st with removed := st.removed ++ [e.1], cd := st.cd + 1 } := by
  simp [ccLoop, h1, h2]

theorem ccLoop_cons_uniq_move (repoH : List String) (e : String × String)
    (rest : List (String × String)) (st : CState)
    (h1 : sha256_hash e.2 ∉ repoH) (h2 : pdfNameOf e.1 ∈ st.mainPdf) :
    ccLoop repoH (e :: rest) st =
      ccLoop repoH rest { st with mainPdf := st.mainPdf.erase (pdfNameOf e.1),
                                  uniq := st.uniq ++ [pdfNameOf e.1],
                                  cu := st.cu + 1 } := by
  simp [ccLoop, h1, h2]

theorem ccLoop_cons_skip (repoH : List String) (e : String × String)
    (rest : List (String × String)) (st : CState)
    (h1 : sha256_hash e.2 ∉ repoH) (h2 : pdfNameOf e.1 ∉ st.mainPdf) :
    ccLoop repoH (e :: rest) st = ccLoop repoH rest st := by
  simp [ccLoop, h1, h2]

theorem ccLoop_cons_step (repoH : List String) (e : String × String)
    (rest : List (String × String)) (st : CState) :
    ∃ st', ccLoop repoH (e :: rest) st = ccLoop repoH rest st' ∧
      st'.mainPdf ⊆ st.mainPdf ∧
      (∀ x, x ∈ st'.uniq → x ∈ st.uniq ∨ x = pdfNameOf e.1) ∧
      (∀ x, x ∉ st.uniq → x ∉ st.mainPdf → x ∉ st'.uniq) := by
  by_cases h1 : sha256_hash e.2 ∈ repoH <;> by_cases h2 : pdfNameOf e.1 ∈ st.mainPdf
  · refine ⟨_, ccLoop_cons_rdup_move repoH e rest st h1 h2,
      List.erase_subset _ _, fun x hx => Or.inl hx, fun x hx _ => hx⟩
  · refine ⟨_, ccLoop_cons_rdup_skip repoH e rest st h1 h2,
      List.Subset.refl _, fun x hx => Or.inl hx, fun x hx _ => hx⟩
  · refine ⟨_, ccLoop_cons_uniq_move repoH e rest st h1 h2,
      List.erase_subset _ _, ?_, ?_⟩
    · intro x hx
      rcases List.mem_append.mp hx with hx | hx
      · exact Or.inl hx
      · exact Or.inr (List.mem_singleton.mp hx)
    · intro x hu hm hc
      rcases List.mem_append.mp hc with hc | hc
      · exact hu hc
      · exact hm (List.mem_singleton.mp hc ▸ h2)
  · exact ⟨_, ccLoop_cons_skip repoH e rest st h1 h2,
      List.Subset.refl _, fun x hx => Or.inl hx, fun x hx _ => hx⟩

theorem ccLoop_append (repoH : List String) (xs ys : List (String × String)) :
    ∀ st, ccLoop repoH (xs ++ ys) st = ccLoop repoH ys (ccLoop repoH xs st) := by
  induction xs with
  | nil => intro st; rfl
  | cons e xs ih =>
    intro st
    rw [List.cons_append]
    by_cases h1 : sha256_hash e.2 ∈ repoH <;> by_cases h2 : pdfNameOf e.1 ∈ st.mainPdf
    · rw [ccLoop_cons_rdup_move repoH e _ st h1 h2,
        ccLoop_cons_rdup_move repoH e xs st h1 h2, ih]
    · rw [ccLoop_cons_rdup_skip repoH e _ st h1 h2,
        ccLoop_cons_rdup_skip repoH e xs st h1 h2, ih]
    · rw [ccLoop_cons_uniq_move repoH e _ st h1 h2,
        ccLoop_cons_uniq_move repoH e xs st h1 h2, ih]
    · rw [ccLoop_cons_skip repoH e _ st h1 h2, ccLoop_cons_skip repoH e xs st h1 h2, ih]

/-- Deleted texts are exactly those whose fingerprint lies in the snapshot
set built before the loop started: the comparison set never changes. -/
theorem ccLoop_removed (repoH : List String) (files : List (String × String)) :
    ∀ st, (ccLoop repoH files st).removed =
      st.removed ++ (files.filter (fun e => decide (sha256_hash e.2 ∈ repoH))).map
        Prod.fst := by
  induction files with
  | nil => intro st; simp [ccLoop]
  | cons e rest ih =>
    intro st
    by_cases h1 : sha256_hash e.2 ∈ repoH <;> by_cases h2 : pdfNameOf e.1 ∈ st.mainPdf <;>
      simp [ccLoop, h1, h2, ih, List.filter_cons]

/-- The repository-duplicate count likewise depends only on the snapshot. -/
theorem ccLoop_cd (repoH : List String) (files : List (String × String)) :
    ∀ st, (ccLoop repoH files st).cd =
      st.cd + (files.filter (fun e => decide (sha256_hash e.2 ∈ repoH))).length := by
  induction files with
  | nil => intro st; simp [ccLoop]
  | cons e rest ih =>
    intro st
    by_cases h1 : sha256_hash e.2 ∈ repoH <;> by_cases h2 : pdfNameOf e.1 ∈ st.mainPdf <;>
      (simp [ccLoop, h1, h2, ih, List.filter_cons]; try omega)

theorem ccLoop_mainPdf_sub (repoH : List String) (files : List (String × String)) :
    ∀ st, (ccLoop repoH files st).mainPdf ⊆ st.mainPdf := by
  induction files with
  | nil => intro st; exact List.Subset.refl _
  | cons e rest ih =>
    intro st
    obtain ⟨st', heq, h1, -⟩ := ccLoop_cons_step repoH e rest st
    rw [heq]
    exact (ih st').trans h1

/-- Anything the comparator adds to the Unique bucket is a generated
`<stem>.pdf` name. -/
theorem ccLoop_uniq_mem (repoH : List String) (files : List (String × String)) :
    ∀ st x, x ∈ (ccLoop repoH files st).uniq → x ∈ st.uniq ∨ endsPdf x = true := by
  induction files with
  | nil => intro st x hx; exact Or.inl hx
  | cons e rest ih =>
    intro st x hx
    obtain ⟨st', heq, -, h2, -⟩ := ccLoop_cons_step repoH e rest st
    rw [heq] at hx
    rcases ih st' x hx with hx | hx
    · rcases h2 x hx with hx | hx
      · exact Or.inl hx
      · exact Or.inr (hx ▸ endsPdf_pdfNameOf _)
    · exact Or.inr hx

theorem ccLoop_uniq_not_mem (repoH : List String) (files : List (String × String)) :
    ∀ st x, x ∉ st.uniq → x ∉ st.mainPdf → x ∉ (ccLoop repoH files st).uniq := by
  induction files with
  | nil => intro st x hu _; exact hu
  | cons e rest ih =>
    intro st x hu hm
    obtain ⟨st', heq, h1, -, h3⟩ := ccLoop_cons_step repoH e rest st
    rw [heq]
    exact ih st' x (h3 x hu hm) (fun hc => hm (h1 hc))

/-- An artifact that is neither a repository duplicate nor has a PDF in
the staging folder leaves the comparator's whole state untouched. -/
theorem ccLoop_skip_entry (repoH : List String) (xs ys : List (String × String))
    (e : String × String) (st : CState)
    (h1 : sha256_hash e.2 ∉ repoH) (h2 : pdfNameOf e.1 ∉ st.mainPdf) :
    ccLoop repoH (xs ++ e :: ys) st = ccLoop repoH (xs ++ ys) st := by
  rw [ccLoop_append, ccLoop_append]
  have h2' : pdfNameOf e.1 ∉ (ccLoop repoH xs st).mainPdf :=
    fun hc => h2 (ccLoop_mainPdf_sub repoH xs st hc)
  rw [ccLoop_cons_skip repoH e ys _ h1 h2']

/-! ### C5: the comparison set is a run-start snapshot -/

/-- C5: the comparator's fingerprint set is derived once from the
repository contents at the start of the stage: a batch artifact's text is
deleted exactly when its fingerprint is in `repoHashes repoFiles` — the
set built from the initial repository files — and the duplicate count
likewise depends only on that initial set, so nothing the batch (or the
updater, which only runs afterwards) writes can enter the comparison. -/
theorem C5_repo_snapshot_read_only (repoFiles : List (String × String)) (fs : FS)
    (htxt : ∀ e ∈ fs.extracted, endsTxt e.1 = true)
    (hnames : (fs.extracted.map Prod.fst).Nodup) :
    (∀ e ∈ fs.extracted,
      (e.1 ∉ ((cross_compare_with_repository repoFiles fs).1.extracted.map Prod.fst) ↔
        sha256_hash e.2 ∈ repoHashes repoFiles)) ∧
    (cross_compare_with_repository repoFiles fs).2.2 =
      (fs.extracted.filter
        (fun e => decide (sha256_hash e.2 ∈ repoHashes repoFiles))).length := by
  have hfilter : fs.extracted.filter (fun e => endsTxt e.1) = fs.extracted :=
    List.filter_eq_self.mpr htxt
  have hrem : (ccLoop (repoHashes repoFiles) fs.extracted
        ⟨[], fs.mainPdf, fs.uniq, fs.dups, 0, 0⟩).removed =
      (fs.extracted.filter
        (fun e => decide (sha256_hash e.2 ∈ repoHashes repoFiles))).map Prod.fst := by
    rw [ccLoop_removed]
    simp
  have hCext : (cross_compare_with_repository repoFiles fs).1.extracted =
      fs.extracted.filter (fun e => !(decide (e.1 ∈ (ccLoop (repoHashes repoFiles)
        fs.extracted ⟨[], fs.mainPdf, fs.uniq, fs.dups, 0, 0⟩).removed))) := by
    simp [cross_compare_with_repository, hfilter]
  constructor
  · intro e he
    constructor
    · intro hnot
      by_contra hc
      have hrm : e.1 ∉ (ccLoop (repoHashes repoFiles) fs.extracted
          ⟨[], fs.mainPdf, fs.uniq, fs.dups, 0, 0⟩).removed := by
        rw [hrem]
        intro hmem
        rcases List.mem_map.mp hmem with ⟨x, hx, hx1⟩
        rcases List.mem_filter.mp hx with ⟨hxl, hxp⟩
        rw [decide_eq_true_eq] at hxp
        have hxe : x = e := List.inj_on_of_nodup_map hnames hxl he hx1
        rw [hxe] at hxp
        exact hc hxp
      refine hnot ?_
      rw [hCext]
      exact List.mem_map_of_mem Prod.fst (mem_filter_not_removed _ _ _ he hrm)
    · intro hin
      rw [hCext]
      refine removed_not_mem_filter _ _ _ ?_
      rw [hrem]
      exact List.mem_map_of_mem _
        (List.mem_filter.mpr ⟨he, by rw [decide_eq_true_eq]; exact hin⟩)
  · have hcd : (cross_compare_with_repository repoFiles fs).2.2 =
        (ccLoop (repoHashes repoFiles) fs.extracted
          ⟨[], fs.mainPdf, fs.uniq, fs.dups, 0, 0⟩).cd := by
      simp [cross_compare_with_repository, hfilter]
    rw [hcd, ccLoop_cd]
    simp

/-- Witness for C5 at a one-artifact batch against an empty repository. -/
theorem C5_repo_snapshot_read_only_witness :
    (∀ e ∈ (FS.mk [("a.txt", "inv 5")] [] [] [] []).extracted, endsTxt e.1 = true) ∧
    (((FS.mk [("a.txt", "inv 5")] [] [] [] []).extracted.map Prod.fst).Nodup) ∧
    ("a.txt" ∉ ((cross_compare_with_repository []
        (FS.mk [("a.txt", "inv 5")] [] [] [] [])).1.extracted.map Prod.fst) ↔
      sha256_hash "inv 5" ∈ repoHashes []) := by
  refine ⟨by decide, by decide, ?_⟩
  exact (C5_repo_snapshot_read_only [] (FS.mk [("a.txt", "inv 5")] [] [] [] [])
    (by decide) (by decide)).1 ("a.txt", "inv 5") (by simp)

/-! ### C6: exception PDFs are copied, never moved, into Unique -/

theorem cross_compare_uniq_excp_mem (repoFiles : List (String × String)) (fs : FS)
    (f : String) (hf : f ∈ fs.excp) (hp : endsPdf f = true) :
    f ∈ (cross_compare_with_repository repoFiles fs).1.uniq := by
  show f ∈ _ ++ fs.excp.filter (fun n => endsPdf n)
  exact List.mem_append.mpr (Or.inr (List.mem_filter.mpr ⟨hf, hp⟩))

/-- C6: every `.pdf` file in the Exception bucket when the comparator's
final step runs is copied into Unique: the Exception bucket is unchanged
by the whole comparison stage (so the file is still there) and the file
also appears in the Unique bucket. -/
theorem C6_exception_pdfs_copied_not_moved (repoFiles : List (String × String)) (fs : FS)
    (f : String) (hf : f ∈ fs.excp) (hp : endsPdf f = true) :
    (cross_compare_with_repository repoFiles fs).1.excp = fs.excp ∧
    f ∈ (cross_compare_with_repository repoFiles fs).1.excp ∧
    f ∈ (cross_compare_with_repository repoFiles fs).1.uniq := by
  exact ⟨rfl, hf, cross_compare_uniq_excp_mem repoFiles fs f hf hp⟩

/-- Witness for C6 with a concrete exception PDF. -/
theorem C6_exception_pdfs_copied_not_moved_witness :
    "e.pdf" ∈ (FS.mk [] [] ["e.pdf"] [] []).excp ∧ endsPdf "e.pdf" = true ∧
    ((cross_compare_with_repository [] (FS.mk [] [] ["e.pdf"] [] [])).1.excp =
        (FS.mk [] [] ["e.pdf"] [] []).excp ∧
      "e.pdf" ∈ (cross_compare_with_repository [] (FS.mk [] [] ["e.pdf"] [] [])).1.excp ∧
      "e.pdf" ∈ (cross_compare_with_repository [] (FS.mk [] [] ["e.pdf"] [] [])).1.uniq) := by
  refine ⟨by decide, by decide, ?_⟩
  exact C6_exception_pdfs_copied_not_moved [] (FS.mk [] [] ["e.pdf"] [] [])
    "e.pdf" (by decide) (by decide)

/-! ### Repository updater: loop lemmas -/

theorem updLoop_repo_mono (stamp : String) (files : List (String × String)) :
    ∀ repo, repo ⊆ (updLoop stamp files repo).1 := by
  induction files with
  | nil => intro repo; exact List.Subset.refl _
  | cons e rest ih =>
    intro repo
    by_cases ht : endsTxt e.1 = true
    · simp only [updLoop, ht, if_true]
      exact (List.subset_append_left _ _).trans (ih _)
    · simp only [updLoop, ht, if_false]
      exact ih _

/-- Every `.txt` artifact in the folder is filed into the repository under
its resolved name. -/
theorem updLoop_moves_txt (stamp : String) (files : List (String × String)) :
    ∀ repo, ∀ e ∈ files, endsTxt e.1 = true →
      ∃ nm, (e.1, nm) ∈ (updLoop stamp files repo).2 ∧
        (nm, e.2) ∈ (updLoop stamp files repo).1 := by
  induction files with
  | nil => intro repo e he; cases he
  | cons x rest ih =>
    intro repo e he ht
    rcases List.mem_cons.mp he with rfl | he
    · simp only [updLoop, ht, if_true]
      refine ⟨resolveName (repo.map Prod.fst) stamp, by simp, ?_⟩
      exact updLoop_repo_mono stamp rest _ (by simp)
    · by_cases hx : endsTxt x.1 = true
      · simp only [updLoop, hx, if_true]
        obtain ⟨nm, h1, h2⟩ := ih _ e he ht
        exact ⟨nm, by simp [h1], h2⟩
      · simp only [updLoop, hx, if_false]
        exact ih _ e he ht

/-! ### C10: unique artifact whose source PDF is absent -/

/-- C10 (implicit behaviour): a batch artifact that is not a repository
duplicate but whose corresponding PDF is missing from the staging folder
is left entirely alone by the comparator — its text survives, no PDF is
placed in Unique, and the unique/duplicate counters are as if the
artifact were not in the batch — and the updater afterwards still moves
its text into the repository corpus. -/
theorem C10_unique_missing_pdf (repoFiles : List (String × String)) (fs : FS)
    (stamp : String) (pre post : List (String × String)) (e : String × String)
    (hsplit : fs.extracted = pre ++ e :: post)
    (htxt : ∀ x ∈ fs.extracted, endsTxt x.1 = true)
    (hnames : (fs.extracted.map Prod.fst).Nodup)
    (hh : sha256_hash e.2 ∉ repoHashes repoFiles)
    (hpM : pdfNameOf e.1 ∉ fs.mainPdf)
    (hpU : pdfNameOf e.1 ∉ fs.uniq)
    (hpE : pdfNameOf e.1 ∉ fs.excp) :
    e ∈ (cross_compare_with_repository repoFiles fs).1.extracted ∧
    pdfNameOf e.1 ∉ (cross_compare_with_repository repoFiles fs).1.uniq ∧
    (cross_compare_with_repository repoFiles fs).2 =
      (cross_compare_with_repository repoFiles { fs with extracted := pre ++ post }).2 ∧
    (∃ nm, (e.1, nm) ∈ (update_repository repoFiles stamp
        (cross_compare_with_repository repoFiles fs).1).2.2 ∧
      (nm, e.2) ∈ (update_repository repoFiles stamp
        (cross_compare_with_repository repoFiles fs).1).1) ∧
    pdfNameOf e.1 ∉ (update_repository repoFiles stamp
        (cross_compare_with_repository repoFiles fs).1).2.1.uniq := by
  have hfilter : fs.extracted.filter (fun x => endsTxt x.1) = fs.extracted :=
    List.filter_eq_self.mpr htxt
  have htxt' : ∀ x ∈ pre ++ post, endsTxt x.1 = true := by
    intro x hx
    refine htxt x ?_
    rw [hsplit]
    rcases List.mem_append.mp hx with hx | hx
    · exact List.mem_append.mpr (Or.inl hx)
    · exact List.mem_append.mpr (Or.inr (List.mem_cons_of_mem _ hx))
  have hfilter' : (pre ++ post).filter (fun x => endsTxt x.1) = pre ++ post :=
    List.filter_eq_self.mpr htxt'
  have he : e ∈ fs.extracted := by rw [hsplit]; simp
  have het : endsTxt e.1 = true := htxt e he
  have hrem : (ccLoop (repoHashes repoFiles) fs.extracted
        ⟨[], fs.mainPdf, fs.uniq, fs.dups, 0, 0⟩).removed =
      (fs.extracted.filter
        (fun x => decide (sha256_hash x.2 ∈ repoHashes repoFiles))).map Prod.fst := by
    rw [ccLoop_removed]
    simp
  have hCext : (cross_compare_with_repository repoFiles fs).1.extracted =
      fs.extracted.filter (fun x => !(decide (x.1 ∈ (ccLoop (repoHashes repoFiles)
        fs.extracted ⟨[], fs.mainPdf, fs.uniq, fs.dups, 0, 0⟩).removed))) := by
    simp [cross_compare_with_repository, hfilter]
  have hCuniq : (cross_compare_with_repository repoFiles fs).1.uniq =
      (ccLoop (repoHashes repoFiles) fs.extracted
        ⟨[], fs.mainPdf, fs.uniq, fs.dups, 0, 0⟩).uniq ++
      fs.excp.filter (fun n => endsPdf n) := by
    simp [cross_compare_with_repository, hfilter]
  have hrm : e.1 ∉ (ccLoop (repoHashes repoFiles) fs.extracted
      ⟨[], fs.mainPdf, fs.uniq, fs.dups, 0, 0⟩).removed := by
    rw [hrem]
    intro hmem
    rcases List.mem_map.mp hmem with ⟨x, hx, hx1⟩
    rcases List.mem_filter.mp hx with ⟨hxl, hxp⟩
    rw [decide_eq_true_eq] at hxp
    have hxe : x = e := List.inj_on_of_nodup_map hnames hxl he hx1
    rw [hxe] at hxp
    exact hh hxp
  have hsurv : e ∈ (cross_compare_with_repository repoFiles fs).1.extracted := by
    rw [hCext]
    exact mem_filter_not_removed _ _ _ he hrm
  have huq : pdfNameOf e.1 ∉ (cross_compare_with_repository repoFiles fs).1.uniq := by
    rw [hCuniq]
    intro hc
    rcases List.mem_append.mp hc with hc | hc
    · exact ccLoop_uniq_not_mem _ _ _ _ hpU hpM hc
    · exact hpE (List.mem_filter.mp hc).1
  refine ⟨hsurv, huq, ?_, ?_, ?_⟩
  · have hA : (cross_compare_with_repository repoFiles fs).2 =
        ((ccLoop (repoHashes repoFiles) fs.extracted
            ⟨[], fs.mainPdf, fs.uniq, fs.dups, 0, 0⟩).cu,
         (ccLoop (repoHashes repoFiles) fs.extracted
            ⟨[], fs.mainPdf, fs.uniq, fs.dups, 0, 0⟩).cd) := by
      simp [cross_compare_with_repository, hfilter]
    have hB : (cross_compare_with_repository repoFiles
          { fs with extracted := pre ++ post }).2 =
        ((ccLoop (repoHashes repoFiles) (pre ++ post)
            ⟨[], fs.mainPdf, fs.uniq, fs.dups, 0, 0⟩).cu,
         (ccLoop (repoHashes repoFiles) (pre ++ post)
            ⟨[], fs.mainPdf, fs.uniq, fs.dups, 0, 0⟩).cd) := by
      simp [cross_compare_with_repository, hfilter']
    have hccskip : ccLoop (repoHashes repoFiles) fs.extracted
          ⟨[], fs.mainPdf, fs.uniq, fs.dups, 0, 0⟩ =
        ccLoop (repoHashes repoFiles) (pre ++ post)
          ⟨[], fs.mainPdf, fs.uniq, fs.dups, 0, 0⟩ := by
      rw [hsplit]
      exact ccLoop_skip_entry _ _ _ _ _ hh hpM
    rw [hA, hB, hccskip]
  · obtain ⟨nm, h1, h2⟩ := updLoop_moves_txt stamp
      (cross_compare_with_repository repoFiles fs).1.extracted repoFiles e hsurv het
    exact ⟨nm, h1, h2⟩
  · exact huq

/-- Witness for C10 with a one-artifact batch, no PDFs, empty repository. -/
theorem C10_unique_missing_pdf_witness :
    sha256_hash "inv 10" ∉ repoHashes [] ∧
    (("a.txt", "inv 10") ∈ (cross_compare_with_repository []
        (FS.mk [("a.txt", "inv 10")] [] [] [] [])).1.extracted ∧
     pdfNameOf "a.txt" ∉ (cross_compare_with_repository []
        (FS.mk [("a.txt", "inv 10")] [] [] [] [])).1.uniq ∧
     (∃ nm, ("a.txt", nm) ∈ (update_repository [] "01012025_120000_Jan_25"
          (cross_compare_with_repository []
            (FS.mk [("a.txt", "inv 10")] [] [] [] [])).1).2.2 ∧
        (nm, "inv 10") ∈ (update_repository [] "01012025_120000_Jan_25"
          (cross_compare_with_repository []
            (FS.mk [("a.txt", "inv 10")] [] [] [] [])).1).1)) := by
  refine ⟨by simp [repoHashes], ?_⟩
  have h := C10_unique_missing_pdf [] (FS.mk [("a.txt", "inv 10")] [] [] [] [])
    "01012025_120000_Jan_25" [] [] ("a.txt", "inv 10")
    rfl (by decide) (by decide) (by simp [repoHashes]) (by decide) (by decide) (by decide)
  exact ⟨h.1, h.2.1, h.2.2.2.1⟩

/-! ### C7: a non-PDF source file across the whole run -/

theorem copyLoop_uniq (src : List SrcFile) :
    ∀ fs p o, (copyLoop src fs p o).1.uniq = fs.uniq := by
  induction src with
  | nil => intro fs p o; rfl
  | cons f rest ih =>
    intro fs p o
    by_cases hf : f.failsCopy = true
    · simp [copyLoop, hf]
    · by_cases hp : endsPdf f.name = true <;> simp [copyLoop, hf, hp, ih]

theorem copyLoop_excp_mono (src : List SrcFile) :
    ∀ fs p o, fs.excp ⊆ (copyLoop src fs p o).1.excp := by
  induction src with
  | nil => intro fs p o; exact List.Subset.refl _
  | cons f rest ih =>
    intro fs p o
    by_cases hf : f.failsCopy = true
    · simp [copyLoop, hf]
    · by_cases hp : endsPdf f.name = true
      · simp only [copyLoop, hf, hp, if_true, if_false, Bool.false_eq_true]
        exact ih { fs with mainPdf := fs.mainPdf ++ [f.name] } (p + 1) o
      · simp only [copyLoop, hf, hp, if_true, if_false, Bool.false_eq_true]
        exact (List.subset_append_left _ _).trans
          (ih { fs with excp := fs.excp ++ [f.name] } p (o + 1))

theorem copyLoop_excp_mem (src : List SrcFile) :
    ∀ fs p o (f : SrcFile), f ∈ src → (∀ g ∈ src, g.failsCopy = false) →
      endsPdf f.name = false → f.name ∈ (copyLoop src fs p o).1.excp := by
  induction src with
  | nil => intro _ _ _ f hf _ _; cases hf
  | cons g rest ih =>
    intro fs p o f hf hok hnp
    have hg : g.failsCopy = false := hok g (by simp)
    have hok' : ∀ x ∈ rest, x.failsCopy = false := fun x hx => hok x (by simp [hx])
    rcases List.mem_cons.mp hf with rfl | hf
    · simp only [copyLoop, hg, hnp, if_true, if_false, Bool.false_eq_true]
      exact copyLoop_excp_mono rest _ _ _ (by simp)
    · by_cases hp : endsPdf g.name = true <;>
        simp only [copyLoop, hg, hp, if_true, if_false, Bool.false_eq_true] <;>
        exact ih _ _ _ f hf hok' hnp

theorem extractLoop_uniq (ext : String → Option String) (pdfs : List String) :
    ∀ fs, (extractLoop ext pdfs fs).uniq = fs.uniq := by
  induction pdfs with
  | nil => intro fs; rfl
  | cons f rest ih =>
    intro fs
    by_cases hp : endsPdf f = true
    · cases hx : ext f <;> simp [extractLoop, hp, hx, ih]
    · simp [extractLoop, hp, ih]

theorem extractLoop_excp_mono (ext : String → Option String) (pdfs : List String) :
    ∀ fs, fs.excp ⊆ (extractLoop ext pdfs fs).excp := by
  induction pdfs with
  | nil => intro fs; exact List.Subset.refl _
  | cons f rest ih =>
    intro fs
    by_cases hp : endsPdf f = true
    · cases hx : ext f with
      | none =>
        simp only [extractLoop, hp, hx, if_true]
        exact (List.subset_append_left _ _).trans
          (ih { fs with mainPdf := fs.mainPdf.erase f, excp := fs.excp ++ [f] })
      | some t =>
        simp only [extractLoop, hp, hx, if_true]
        exact ih { fs with extracted := fs.extracted ++ [(splitextStem f ++ ".txt", t)] }
    · simp only [extractLoop, hp, if_false, Bool.false_eq_true]
      exact ih fs

theorem cross_compare_uniq_mem (repoFiles : List (String × String)) (fs : FS)
    (x : String) (hx : x ∈ (cross_compare_with_repository repoFiles fs).1.uniq) :
    x ∈ fs.uniq ∨ endsPdf x = true := by
  have hx' : x ∈ (ccLoop (repoHashes repoFiles)
      (fs.extracted.filter (fun e => endsTxt e.1))
      ⟨[], fs.mainPdf, fs.uniq, fs.dups, 0, 0⟩).uniq ++
      fs.excp.filter (fun n => endsPdf n) := hx
  rcases List.mem_append.mp hx' with h | h
  · exact ccLoop_uniq_mem _ _ _ _ h
  · exact Or.inr (List.mem_filter.mp h).2

/-- C7 counterexample: a non-PDF source file ends the run present in the
Exception bucket but absent from the Unique bucket — the final
exception-to-unique copy only takes `.pdf` files, so the claim's
"also copied into Unique" fails. -/
theorem C7_nonpdf_counterexample :
    "a.docx" ∈ (runPipeline [SrcFile.mk "a.docx" false] (fun _ => none)
      [] "s" emptyFS).1.excp ∧
    "a.docx" ∉ (runPipeline [SrcFile.mk "a.docx" false] (fun _ => none)
      [] "s" emptyFS).1.uniq := by
  decide

/-- C7 (amended): a non-PDF source file is copied to the Exception bucket
at intake and is still there at the end of the run, but it is never
copied into the Unique bucket: the comparator's final copy step takes
only files whose name ends in `.pdf`. -/
theorem C7_nonpdf_in_exception_not_unique (src : List SrcFile)
    (ext : String → Option String) (repoFiles : List (String × String))
    (stamp : String) (fs : FS) (f : SrcFile)
    (hok : ∀ g ∈ src, g.failsCopy = false)
    (hf : f ∈ src) (hnp : endsPdf f.name = false)
    (hu0 : f.name ∉ fs.uniq) :
    f.name ∈ (runPipeline src ext repoFiles stamp fs).1.excp ∧
    f.name ∉ (runPipeline src ext repoFiles stamp fs).1.uniq := by
  have h1 : f.name ∈ (copy_pdfs_to_main_folder src fs).excp :=
    copyLoop_excp_mem src fs 0 0 f hf hok hnp
  have h2 : f.name ∈ (extract_texts ext (copy_pdfs_to_main_folder src fs)).excp :=
    extractLoop_excp_mono ext _ _ h1
  have hres : (runPipeline src ext repoFiles stamp fs).1 =
      cleanup_main_pdf_folder (update_repository repoFiles stamp
        (cross_compare_with_repository repoFiles
          (deduplicate_text_files
            (extract_texts ext (copy_pdfs_to_main_folder src fs)))).1).2.1 := rfl
  constructor
  · rw [hres]
    show f.name ∈ _ ++ _
    refine List.mem_append.mpr (Or.inl ?_)
    exact h2
  · rw [hres]
    show f.name ∉ (cross_compare_with_repository repoFiles
      (deduplicate_text_files (extract_texts ext (copy_pdfs_to_main_folder src fs)))).1.uniq
    intro hc
    rcases cross_compare_uniq_mem _ _ _ hc with hc | hc
    · have huniq : (deduplicate_text_files
          (extract_texts ext (copy_pdfs_to_main_folder src fs))).uniq = fs.uniq := by
        show (extract_texts ext (copy_pdfs_to_main_folder src fs)).uniq = fs.uniq
        rw [extract_texts, extractLoop_uniq]
        exact copyLoop_uniq src fs 0 0
      rw [huniq] at hc
      exact hu0 hc
    · rw [hnp] at hc
      cases hc

/-- Witness for the amended C7 at a concrete non-PDF source file. -/
theorem C7_nonpdf_in_exception_not_unique_witness :
    endsPdf "b.docx" = false ∧
    ("b.docx" ∈ (runPipeline [SrcFile.mk "b.docx" false] (fun _ => none)
        [("r.txt", "known")] "01012025_120000_Jan_25" emptyFS).1.excp ∧
     "b.docx" ∉ (runPipeline [SrcFile.mk "b.docx" false] (fun _ => none)
        [("r.txt", "known")] "01012025_120000_Jan_25" emptyFS).1.uniq) := by
  refine ⟨by decide, ?_⟩
  exact C7_nonpdf_in_exception_not_unique [SrcFile.mk "b.docx" false] (fun _ => none)
    [("r.txt", "known")] "01012025_120000_Jan_25" emptyFS (SrcFile.mk "b.docx" false)
    (by decide) (by simp) (by decide) (by decide)

/-! ### C4: collision probe and generated-name uniqueness -/

theorem hexDigitChar_inj_lt10 {d1 d2 : Nat} (h1 : d1 < 10) (h2 : d2 < 10)
    (h : hexDigitChar d1 = hexDigitChar d2) : d1 = d2 := by
  interval_cases d1 <;> interval_cases d2 <;> revert h <;> decide

theorem map_hexDigitChar_inj (l1 l2 : List Nat) (h1 : ∀ d ∈ l1, d < 10)
    (h2 : ∀ d ∈ l2, d < 10) (h : l1.map hexDigitChar = l2.map hexDigitChar) :
    l1 = l2 := by
  induction l1 generalizing l2 with
  | nil => cases l2 with
    | nil => rfl
    | cons b t => simp at h
  | cons a t ih =>
    cases l2 with
    | nil => simp at h
    | cons b t2 =>
      simp only [List.map_cons, List.cons.injEq] at h
      have ha : a = b := hexDigitChar_inj_lt10 (h1 a (by simp)) (h2 b (by simp)) h.1
      rw [ha, ih t2 (fun d hd => h1 d (by simp [hd])) (fun d hd => h2 d (by simp [hd])) h.2]

theorem decDigitsAux_lt10 : ∀ fuel n, ∀ d ∈ decDigitsAux fuel n, d < 10 := by
  intro fuel
  induction fuel with
  | zero => intro n d hd; cases hd
  | succ fuel ih =>
    intro n d hd
    cases n with
    | zero => cases hd
    | succ m =>
      rcases List.mem_cons.mp hd with rfl | hd
      · exact Nat.mod_lt _ (by norm_num)
      · exact ih _ d hd

theorem ofDigits_decDigitsAux : ∀ fuel n, n ≤ fuel →
    Nat.ofDigits 10 (decDigitsAux fuel n) = n := by
  intro fuel
  induction fuel with
  | zero =>
    intro n hn
    interval_cases n
    rfl
  | succ fuel ih =>
    intro n hn
    cases n with
    | zero => rfl
    | succ m =>
      have hdiv : (m + 1) / 10 ≤ fuel := by
        have h1 : (m + 1) / 10 < m + 1 := Nat.div_lt_self (Nat.succ_pos m) (by norm_num)
        omega
      rw [show decDigitsAux (fuel + 1) (m + 1) =
        (m + 1) % 10 :: decDigitsAux fuel ((m + 1) / 10) from rfl]
      rw [Nat.ofDigits_cons, ih _ hdiv]
      omega

theorem decStr_inj : Function.Injective decStr := by
  intro m n h
  unfold decStr at h
  have hd : (((decDigitsAux m m).map hexDigitChar).reverse) =
      (((decDigitsAux n n).map hexDigitChar).reverse) := congrArg String.data h
  have hd2 := List.reverse_injective hd
  have hd3 := map_hexDigitChar_inj _ _ (decDigitsAux_lt10 m m) (decDigitsAux_lt10 n n) hd2
  have h1 := ofDigits_decDigitsAux m m (le_refl m)
  have h2 := ofDigits_decDigitsAux n n (le_refl n)
  rw [← h1, ← h2, hd3]

theorem str_append_cancel_left {a b c : String} (h : a ++ b = a ++ c) : b = c := by
  apply String.ext
  have hd := congrArg String.data h
  rw [String.data_append, String.data_append] at hd
  exact List.append_cancel_left hd

theorem str_append_cancel_right {a b c : String} (h : b ++ a = c ++ a) : b = c := by
  apply String.ext
  have hd := congrArg String.data h
  rw [String.data_append, String.data_append] at hd
  exact List.append_cancel_right hd

theorem candName_inj (stamp : String) : Function.Injective (candName stamp) := by
  intro j k h
  unfold candName at h
  have l1 : ("INVC_" : String).length = 5 := rfl
  have l2 : (".txt" : String).length = 4 := rfl
  have l3 : ("_" : String).length = 1 := rfl
  by_cases hj : j = 0 <;> by_cases hk : k = 0
  · rw [hj, hk]
  · rw [if_pos hj, if_neg hk] at h
    exfalso
    have hlen := congrArg String.length h
    simp only [String.length_append, l1, l2, l3] at hlen
    omega
  · rw [if_neg hj, if_pos hk] at h
    exfalso
    have hlen := congrArg String.length h
    simp only [String.length_append, l1, l2, l3] at hlen
    omega
  · rw [if_neg hj, if_neg hk] at h
    have h1 := str_append_cancel_right h
    have h2 := str_append_cancel_left h1
    exact decStr_inj h2

theorem exists_free_cand (repo : List String) (stamp : String) :
    ∃ k, k ≤ repo.length ∧ candName stamp k ∉ repo := by
  by_contra hc
  push_neg at hc
  have hnd : ((List.range (repo.length + 1)).map (candName stamp)).Nodup :=
    (List.nodup_range _).map (candName_inj stamp)
  have hsub : ((List.range (repo.length + 1)).map (candName stamp)).toFinset ⊆
      repo.toFinset := by
    intro x hx
    rw [List.mem_toFinset] at hx ⊢
    rcases List.mem_map.mp hx with ⟨k, hk, rfl⟩
    exact hc k (Nat.lt_succ_iff.mp (List.mem_range.mp hk))
  have h1 : ((List.range (repo.length + 1)).map (candName stamp)).toFinset.card =
      repo.length + 1 := by
    rw [List.toFinset_card_of_nodup hnd, List.length_map, List.length_range]
  have h2 := Finset.card_le_card hsub
  have h3 := List.toFinset_card_le repo
  omega

/-- `probeLoop` returns the least free index at or after `k`, provided a
free index exists within the fuel. -/
theorem probeLoop_finds (repo : List String) (stamp : String) :
    ∀ fuel k, (∃ j, k ≤ j ∧ j < k + fuel ∧ candName stamp j ∉ repo) →
      candName stamp (probeLoop repo stamp fuel k) ∉ repo ∧
      k ≤ probeLoop repo stamp fuel k ∧
      ∀ j, k ≤ j → j < probeLoop repo stamp fuel k → candName stamp j ∈ repo := by
  intro fuel
  induction fuel with
  | zero =>
    rintro k ⟨j, hj1, hj2, -⟩
    exact absurd hj2 (by omega)
  | succ fuel ih =>
    intro k hex
    by_cases hk : candName stamp k ∈ repo
    · have hex' : ∃ j, k + 1 ≤ j ∧ j < (k + 1) + fuel ∧ candName stamp j ∉ repo := by
        obtain ⟨j, hj1, hj2, hj3⟩ := hex
        refine ⟨j, ?_, by omega, hj3⟩
        rcases Nat.eq_or_lt_of_le hj1 with rfl | hlt
        · exact absurd hk hj3
        · omega
      obtain ⟨ha, hb, hc⟩ := ih (k + 1) hex'
      rw [show probeLoop repo stamp (fuel + 1) k = probeLoop repo stamp fuel (k + 1) from
        by simp [probeLoop, hk]]
      refine ⟨ha, by omega, ?_⟩
      intro j h1 h2
      rcases Nat.eq_or_lt_of_le h1 with rfl | hlt
      · exact hk
      · exact hc j (by omega) h2
    · rw [show probeLoop repo stamp (fuel + 1) k = k from by simp [probeLoop, hk]]
      exact ⟨hk, le_refl _, fun j h1 h2 => absurd h1 (by omega)⟩

/-- The resolved index is the least collision-free probe index. -/
theorem resolveIdx_least (repo : List String) (stamp : String) :
    candName stamp (resolveIdx repo stamp) ∉ repo ∧
    ∀ j < resolveIdx repo stamp, candName stamp j ∈ repo := by
  obtain ⟨k, hk, hfree⟩ := exists_free_cand repo stamp
  have h := probeLoop_finds repo stamp (repo.length + 1) 0 ⟨k, Nat.zero_le _, by omega, hfree⟩
  exact ⟨h.1, fun j hj => h.2.2 j (Nat.zero_le _) hj⟩

theorem updLoop_names (stamp : String) (files : List (String × String)) :
    ∀ repo, ((updLoop stamp files repo).2.map Prod.snd) =
      (updIdxs stamp files repo).map (candName stamp) := by
  induction files with
  | nil => intro repo; rfl
  | cons e rest ih =>
    intro repo
    by_cases ht : endsTxt e.1 = true
    · simp only [updLoop, updIdxs, ht, if_true, List.map_cons, resolveName]
      rw [ih]
    · simp only [updLoop, updIdxs, ht, if_false, Bool.false_eq_true]
      exact ih repo

theorem updIdxs_lower_bound (stamp : String) (files : List (String × String)) :
    ∀ (repo : List (String × String)) (k0 : Nat),
      (∀ j ≤ k0, candName stamp j ∈ repo.map Prod.fst) →
      ∀ x ∈ updIdxs stamp files repo, k0 < x := by
  induction files with
  | nil => intro repo k0 _ x hx; cases hx
  | cons e rest ih =>
    intro repo k0 hbelow x hx
    by_cases ht : endsTxt e.1 = true
    · simp only [updIdxs, ht, if_true] at hx
      have hk : k0 < resolveIdx (repo.map Prod.fst) stamp := by
        by_contra hc
        push_neg at hc
        exact (resolveIdx_least (repo.map Prod.fst) stamp).1 (hbelow _ hc)
      rcases List.mem_cons.mp hx with rfl | hx
      · exact hk
      · have hbelow' : ∀ j ≤ resolveIdx (repo.map Prod.fst) stamp,
            candName stamp j ∈ ((repo ++ [(candName stamp
              (resolveIdx (repo.map Prod.fst) stamp), e.2)]).map Prod.fst) := by
          intro j hj
          rw [List.map_append]
          rcases Nat.lt_or_ge j (resolveIdx (repo.map Prod.fst) stamp) with hlt | hge
          · exact List.mem_append.mpr (Or.inl ((resolveIdx_least _ _).2 j hlt))
          · have hje : j = resolveIdx (repo.map Prod.fst) stamp := le_antisymm hj hge
            rw [hje]
            simp
        exact lt_trans hk (ih _ _ hbelow' x hx)
    · simp only [updIdxs, ht, if_false, Bool.false_eq_true] at hx
      exact ih repo k0 hbelow x hx

/-- The suffix indices probed by one run are strictly increasing. -/
theorem updIdxs_pairwise (stamp : String) (files : List (String × String)) :
    ∀ repo, List.Pairwise (· < ·) (updIdxs stamp files repo) := by
  induction files with
  | nil => intro repo; exact List.Pairwise.nil
  | cons e rest ih =>
    intro repo
    by_cases ht : endsTxt e.1 = true
    · simp only [updIdxs, ht, if_true]
      refine List.pairwise_cons.mpr ⟨?_, ih _⟩
      intro x hx
      refine updIdxs_lower_bound stamp rest _ (resolveIdx (repo.map Prod.fst) stamp)
        ?_ x hx
      intro j hj
      rw [List.map_append]
      rcases Nat.lt_or_ge j (resolveIdx (repo.map Prod.fst) stamp) with hlt | hge
      · exact List.mem_append.mpr (Or.inl ((resolveIdx_least _ _).2 j hlt))
      · have hje : j = resolveIdx (repo.map Prod.fst) stamp := le_antisymm hj hge
        rw [hje]
        simp
    · simp only [updIdxs, ht, if_false, Bool.false_eq_true]
      exact ih repo

/-- C4: the collision probe tries the base name, then `_1`, `_2`, ... and
stops at the first name not in the repository (least free index, no
gaps); for the artifacts filed in one run (one shared timestamp token)
the resolved names are pairwise distinct and their numeric suffix indices
strictly increase. -/
theorem C4_collision_probe_no_gaps_increasing (repoFiles : List (String × String))
    (stamp : String) (files : List (String × String)) (fs : FS) :
    (∀ repoNames : List String,
      candName stamp (resolveIdx repoNames stamp) ∉ repoNames ∧
      ∀ j < resolveIdx repoNames stamp, candName stamp j ∈ repoNames) ∧
    ((updLoop stamp files repoFiles).2.map Prod.snd) =
      (updIdxs stamp files repoFiles).map (candName stamp) ∧
    List.Pairwise (· < ·) (updIdxs stamp files repoFiles) ∧
    ((updLoop stamp files repoFiles).2.map Prod.snd).Nodup ∧
    (update_repository repoFiles stamp fs).2.2 =
      (updLoop stamp fs.extracted repoFiles).2 := by
  refine ⟨fun repoNames => resolveIdx_least repoNames stamp,
    updLoop_names stamp files repoFiles,
    updIdxs_pairwise stamp files repoFiles, ?_, rfl⟩
  rw [updLoop_names]
  exact List.Nodup.map (candName_inj stamp)
    ((updIdxs_pairwise stamp files repoFiles).imp (fun h => Nat.ne_of_lt h))

/-- Witness for C4's probe minimality at a concrete one-entry repository:
the base name collides, so the resolved index is 1 and index 0 probed. -/
theorem C4_collision_probe_no_gaps_increasing_witness :
    0 < resolveIdx ["INVC_s.txt"] "s" ∧ candName "s" 0 ∈ ["INVC_s.txt"] := by
  refine ⟨by decide, ?_⟩
  exact ((C4_collision_probe_no_gaps_increasing [] "s" [] emptyFS).1
    ["INVC_s.txt"]).2 0 (by decide)

end InvoiceDedup
